import Mathlib

/-!
# Verification of the Hebrew palindrome finder

A shallow embedding of the palindrome-search core (`normalizeHebrew`,
`isPalindrome`, `findPalindromes`).  JavaScript strings are modelled as
lists of Unicode codepoints (`List Nat`); all text processed by the core
lies in the Basic Multilingual Plane, where codepoints coincide with the
UTF-16 code units that JavaScript's `length`, `substring` and indexing
operate on.

The repository holds two revisions of the module: an early one (no
reference stripping, dedup keyed on the pair normalized/original) and the
later one (Biblical reference stripping before the other passes, dedup
keyed on the normalized form alone, sorted output).  The later revision is
embedded in full; of the earlier revision we embed its normalizer
(`normalizeHebrewV1`), which is the same pipeline without the two
reference-pattern substitutions.
-/

/-! ## Character classes -/

/-- Membership in the Hebrew base-letter range `[א-ת]`. -/
def isHebLetter (c : Nat) : Bool := 0x05D0 ≤ c && c ≤ 0x05EA

/-- Membership in the Hebrew diacritics range `[֑-ׇ]` (niqqud and
cantillation marks). -/
def isNiqqud (c : Nat) : Bool := 0x0591 ≤ c && c ≤ 0x05C7

/-- The separator class `[,:]` of the first reference pattern. -/
def isSepChar (c : Nat) : Bool := c == 0x2C || c == 0x3A

/-- The class `["'״׳(]` : straight quotes, gershayim, geresh, opening
parenthesis.  Used both as the optional opener of the first reference
pattern and (together with the Hebrew letters) as the scanner's
start-character test. -/
def isQuoteOpen (c : Nat) : Bool :=
  c == 0x22 || c == 0x27 || c == 0x05F4 || c == 0x05F3 || c == 0x28

/-- The class `["'״׳)]` closing the first reference pattern. -/
def isQuoteClose (c : Nat) : Bool :=
  c == 0x22 || c == 0x27 || c == 0x05F4 || c == 0x05F3 || c == 0x29

/-- JavaScript's `\s` class, which is also the character set removed by
`String.prototype.trim`. -/
def isJsSpace (c : Nat) : Bool :=
  c == 0x9 || c == 0xA || c == 0xB || c == 0xC || c == 0xD || c == 0x20 ||
  c == 0xA0 || c == 0x1680 || (0x2000 ≤ c && c ≤ 0x200A) ||
  c == 0x2028 || c == 0x2029 || c == 0x202F || c == 0x205F ||
  c == 0x3000 || c == 0xFEFF

/-- The five final-form (sofit) letters. -/
def isSofit (c : Nat) : Bool :=
  c == 0x05DA || c == 0x05DD || c == 0x05DF || c == 0x05E3 || c == 0x05E5

/-! ## Regex matchers

The two reference patterns are fixed regexes applied with
`String.replace(re, ' ')` under the global flag.  We embed them as
explicit matchers: `matchRef s` (resp. `matchParen s`) returns the length
of the match the JavaScript engine finds at the start of `s`, following
the engine's greedy-with-backtracking order, or `none`. -/

/-- Length of the run of Hebrew letters at the head of `s`. -/
def lettersRun (s : List Nat) : Nat := (s.takeWhile isHebLetter).length

/-- Length of the run of `\s` characters at the head of `s`. -/
def spacesRun (s : List Nat) : Nat := (s.takeWhile isJsSpace).length

/-- After the separator of `["'״׳(]?[א-ת]{1,3}[,:][א-ת]{1,3}["'״׳)]?`:
one to three letters (greedy) then the optional closer. -/
def refAfterSep (s : List Nat) : Option Nat :=
  let k := min 3 (lettersRun s)
  if k == 0 then none
  else match (s.drop k).head? with
    | some c => if isQuoteClose c then some (k + 1) else some k
    | none => some k

/-- The separator of the first reference pattern followed by its tail. -/
def refFromSep : List Nat → Option Nat
  | [] => none
  | c :: rest =>
    if isSepChar c then (refAfterSep rest).map (· + 1) else none

/-- Greedy first letter group of the first reference pattern: try
`k, k-1, …, 1` letters, succeeding on the first count whose continuation
matches. -/
def refTryLetters (s : List Nat) : Nat → Option Nat
  | 0 => none
  | k + 1 =>
    match refFromSep (s.drop (k + 1)) with
    | some t => some (k + 1 + t)
    | none => refTryLetters s k

/-- First reference pattern without its optional opener. -/
def refCore (s : List Nat) : Option Nat :=
  refTryLetters s (min 3 (lettersRun s))

/-- Matcher for `["'״׳(]?[א-ת]{1,3}[,:][א-ת]{1,3}["'״׳)]?`
anchored at the head of `s`. -/
def matchRef : List Nat → Option Nat
  | [] => none
  | c :: rest =>
    if isQuoteOpen c then
      match refCore rest with
      | some t => some (t + 1)
      | none => refCore (c :: rest)
    else refCore (c :: rest)

/-- Second letter group of `[(\[][א-ת]{1,3}\s+[א-ת]{1,3}[)\]]`
followed by the mandatory closing bracket: try `k, …, 1` letters. -/
def parenTryClose (s : List Nat) : Nat → Option Nat
  | 0 => none
  | k + 1 =>
    match (s.drop (k + 1)).head? with
    | some c =>
      if c == 0x29 || c == 0x5D then some (k + 2) else parenTryClose s k
    | none => parenTryClose s k

/-- Letters-then-closer tail of the second reference pattern. -/
def parenClose (s : List Nat) : Option Nat :=
  parenTryClose s (min 3 (lettersRun s))

/-- The `\s+` of the second reference pattern (greedy, backtracking from
the full run down to one character) followed by its tail. -/
def parenTrySpaces (s : List Nat) : Nat → Option Nat
  | 0 => none
  | m + 1 =>
    match parenClose (s.drop (m + 1)) with
    | some t => some (m + 1 + t)
    | none => parenTrySpaces s m

/-- First letter group of the second reference pattern followed by its
tail. -/
def parenTryLetters (s : List Nat) : Nat → Option Nat
  | 0 => none
  | k + 1 =>
    match parenTrySpaces (s.drop (k + 1)) (spacesRun (s.drop (k + 1))) with
    | some t => some (k + 1 + t)
    | none => parenTryLetters s k

/-- Second reference pattern without its opening bracket. -/
def parenCore (s : List Nat) : Option Nat :=
  parenTryLetters s (min 3 (lettersRun s))

/-- Matcher for `[(\[][א-ת]{1,3}\s+[א-ת]{1,3}[)\]]`
anchored at the head of `s`. -/
def matchParen : List Nat → Option Nat
  | [] => none
  | c :: rest =>
    if c == 0x28 || c == 0x5B then (parenCore rest).map (· + 1) else none

/-- Fuel-driven global `replace(re, ' ')`: scan left to right, at each
position emit a single space for a match (resuming after it) or copy the
character.  With fuel at least the length of the input the fuel never runs
out. -/
def replaceReFuel (m : List Nat → Option Nat) : Nat → List Nat → List Nat
  | 0, s => s
  | _, [] => []
  | fuel + 1, c :: rest =>
    match m (c :: rest) with
    | some L => 0x20 :: replaceReFuel m fuel (rest.drop (L - 1))
    | none => c :: replaceReFuel m fuel rest

/-- `String.replace(re, ' ')` with the global flag. -/
def replaceRe (m : List Nat → Option Nat) (s : List Nat) : List Nat :=
  replaceReFuel m s.length s

/-! ## Normalizer -/

/-- Final-letter folding combined with the keep-only-Hebrew filter: the
body of the accumulation loop shared by both revisions of
`normalizeHebrew`.  The sofit lookup is tried before the base-letter
test, exactly as in the source. -/
def sofitFold (c : Nat) : Option Nat :=
  if c == 0x05DA then some 0x05DB
  else if c == 0x05DD then some 0x05DE
  else if c == 0x05DF then some 0x05E0
  else if c == 0x05E3 then some 0x05E4
  else if c == 0x05E5 then some 0x05E6
  else if isHebLetter c then some c
  else none

/-- The later revision's `normalizeHebrew`: strip the two Biblical
reference patterns (each match becoming one space), remove niqqud, fold
final letters and keep only Hebrew letters. -/
def normalizeHebrew (text : List Nat) : List Nat :=
  ((replaceRe matchParen (replaceRe matchRef text)).filter
    (fun c => !isNiqqud c)).filterMap sofitFold

/-- The earlier revision's `normalizeHebrew`: same pipeline without the
reference-pattern substitutions. -/
def normalizeHebrewV1 (text : List Nat) : List Nat :=
  (text.filter (fun c => !isNiqqud c)).filterMap sofitFold

/-! ## Palindrome predicate -/

/-- `isPalindrome`: strings shorter than three characters are rejected,
otherwise the string is compared with its reversal. -/
def isPalindrome (s : List Nat) : Bool :=
  if s.length < 3 then false else s == s.reverse

/-! ## Scanner -/

/-- `String.prototype.trim`. -/
def trimJs (s : List Nat) : List Nat :=
  ((s.dropWhile isJsSpace).reverse.dropWhile isJsSpace).reverse

/-- One found sequence: `{normalized, original, length}`. -/
structure MatchR where
  normalized : List Nat
  original : List Nat
  length : Nat
deriving DecidableEq

/-- The scanner's start-character test `[א-ת"'״׳(]`. -/
def canStart (c : Nat) : Bool := isHebLetter c || isQuoteOpen c

/-- The inner `j` loop of `findPalindromes`, for a fixed start `i`: `j`
runs upward (fuel counts the remaining iterations, so calling with fuel
`text.length - i` and `j = i + 1` covers `j = i+1, …, text.length`).
Either `break` ends the recursion; a span is recorded when its normalized
form is long enough and palindromic. -/
def scanFrom (text : List Nat) (i : Nat) (minLength maxLength : Int) :
    Nat → Nat → List MatchR
  | _, 0 => []
  | j, fuel + 1 =>
    if ((((text.drop i).take (j - i)).length : Int) > maxLength * 4) then []
    else if ((normalizeHebrew ((text.drop i).take (j - i))).length : Int) >
        maxLength then []
    else
      (if minLength ≤ ((normalizeHebrew ((text.drop i).take (j - i))).length : Int) ∧
          isPalindrome (normalizeHebrew ((text.drop i).take (j - i))) = true then
        [⟨normalizeHebrew ((text.drop i).take (j - i)),
          trimJs ((text.drop i).take (j - i)),
          (normalizeHebrew ((text.drop i).take (j - i))).length⟩]
      else []) ++ scanFrom text i minLength maxLength (j + 1) fuel

/-- The flat `results` list accumulated by the two nested loops of
`findPalindromes`, before deduplication. -/
def scanResults (text : List Nat) (minLength maxLength : Int) : List MatchR :=
  (List.range text.length).foldr
    (fun i acc =>
      (if canStart (text.getD i 0) then
        scanFrom text i minLength maxLength (i + 1) (text.length - i)
      else []) ++ acc)
    []

/-! ## Deduplication and ranking -/

/-- Stable insertion step for sorting by non-increasing `length`: the new
element goes in front of the first element whose length does not exceed
its own, so among equal lengths earlier elements stay first. -/
def insertByLenDesc (r : MatchR) : List MatchR → List MatchR
  | [] => [r]
  | x :: xs =>
    if r.length < x.length then x :: insertByLenDesc r xs else r :: x :: xs

/-- The stable sort `results.sort((a, b) => b.length - a.length)`:
descending by `length`, ties kept in original order (JavaScript's sort is
stable, so this insertion sort computes the same list). -/
def sortByLenDesc (l : List MatchR) : List MatchR :=
  l.foldr insertByLenDesc []

/-- One step of the `uniqueMatches` map accumulation: a new normalized
form is appended; for a known one the stored entry is replaced exactly
when the new original text is strictly shorter, keeping its position. -/
def insertMatch (acc : List MatchR) (res : MatchR) : List MatchR :=
  match acc.find? (fun m => m.normalized == res.normalized) with
  | none => acc ++ [res]
  | some existing =>
    if res.original.length < existing.original.length then
      acc.map (fun m => if m.normalized == res.normalized then res else m)
    else acc

/-- `findPalindromes (text, minLength, maxLength)` of the later revision:
enumerate, sort by descending length, deduplicate by normalized form
(preferring the shortest original), and sort the surviving entries by
descending length. -/
def findPalindromes (text : List Nat) (minLength maxLength : Int) : List MatchR :=
  sortByLenDesc
    ((sortByLenDesc (scanResults text minLength maxLength)).foldl insertMatch [])

/-! ## Selection rule of the specification

`groupRep` is written from the specification's words, not from the source:
from a group of raw matches sharing one normalized form, keep exactly one
representative — the one with the shortest `original`, the first
encountered on ties.  The deduplication theorem compares the code's output
against it. -/

/-- Of two candidates, the later one wins only with a strictly shorter
original text. -/
def pickRep (a b : MatchR) : MatchR :=
  if b.original.length < a.original.length then b else a

/-- The representative of a group of raw matches: shortest original,
first encountered on ties; an empty group has no representative. -/
def groupRep : List MatchR → List MatchR
  | [] => []
  | g :: gs => [gs.foldl pickRep g]

/-- Proof infrastructure for the deduplication pass: the entries of one
normalized-form group that survive folding `insertMatch` over a list,
given the group entries already in the accumulator (at most one, by the
accumulator's key-uniqueness invariant) and the group entries of the
list. -/
def dedupGroup : List MatchR → List MatchR → List MatchR
  | [], g => groupRep g
  | x :: _, g => [g.foldl pickRep x]

/-! ## Basic facts about the palindrome predicate and the normalizer -/

theorem isPalindrome_length {s : List Nat} (h : isPalindrome s = true) :
    3 ≤ s.length := by
  unfold isPalindrome at h
  split at h
  · cases h
  · omega

theorem sofitFold_out {a c : Nat} (h : sofitFold a = some c) :
    isHebLetter c = true ∧ isSofit c = false := by
  unfold sofitFold at h
  split_ifs at h with h1 h2 h3 h4 h5 h6 <;>
    simp only [Option.some.injEq] at h <;> subst h <;>
    simp_all [isHebLetter, isSofit]

theorem normalizeHebrew_mem {text : List Nat} {c : Nat}
    (hc : c ∈ normalizeHebrew text) :
    isHebLetter c = true ∧ isSofit c = false := by
  unfold normalizeHebrew at hc
  obtain ⟨a, -, ha⟩ := List.mem_filterMap.mp hc
  exact sofitFold_out ha

/-! ## Claim C3: the palindrome predicate -/

/-- C3: `isPalindrome s` returns true exactly when `s` reads identically
forward and backward and `|s| ≥ 3`; in particular it returns false for
every `s` with `|s| < 3`, regardless of content. -/
theorem isPalindrome_iff (s : List Nat) :
    isPalindrome s = true ↔ (s = s.reverse ∧ 3 ≤ s.length) := by
  unfold isPalindrome
  split
  · constructor
    · intro h; cases h
    · rintro ⟨-, h3⟩; omega
  · rw [beq_iff_eq]
    exact ⟨fun he => ⟨he, by omega⟩, fun h => h.1⟩

/-! ## Claim C4: canonical forms hold only base Hebrew letters -/

/-- C4: every character of `normalizeHebrew text` is a base Hebrew letter:
in the letter range, not a final-form glyph, and in particular not a
combining mark, whitespace, or a digit. -/
theorem normalizeHebrew_only_base_letters (text : List Nat) :
    ∀ c ∈ normalizeHebrew text,
      (0x05D0 ≤ c ∧ c ≤ 0x05EA) ∧ isSofit c = false ∧
      isNiqqud c = false ∧ isJsSpace c = false ∧ ¬(0x30 ≤ c ∧ c ≤ 0x39) := by
  intro c hc
  obtain ⟨hheb, hsof⟩ := normalizeHebrew_mem hc
  simp only [isHebLetter, Bool.and_eq_true, decide_eq_true_eq] at hheb
  refine ⟨hheb, hsof, ?_, ?_, by omega⟩
  · simp only [isNiqqud, Bool.and_eq_false_iff, decide_eq_false_iff_not]
    omega
  · simp only [isJsSpace, Bool.or_eq_false_iff, Bool.and_eq_false_iff,
      beq_eq_false_iff_ne, ne_eq, decide_eq_false_iff_not]
    omega

/-- Witness for C4 at a concrete input: normalizing the single final-form
letter ך yields the base letter כ, which satisfies all the stated
character-class facts. -/
theorem normalizeHebrew_only_base_letters_witness :
    0x05DB ∈ normalizeHebrew [0x05DA] ∧
      ((0x05D0 ≤ 0x05DB ∧ 0x05DB ≤ 0x05EA) ∧ isSofit 0x05DB = false ∧
       isNiqqud 0x05DB = false ∧ isJsSpace 0x05DB = false ∧
       ¬(0x30 ≤ 0x05DB ∧ 0x05DB ≤ 0x39)) :=
  ⟨by decide, normalizeHebrew_only_base_letters [0x05DA] 0x05DB (by decide)⟩

/-! ## The matchers fail on letter-only text -/

theorem isHebLetter_not_sep {c : Nat} (h : isHebLetter c = true) :
    isSepChar c = false := by
  simp only [isHebLetter, Bool.and_eq_true, decide_eq_true_eq] at h
  simp only [isSepChar, Bool.or_eq_false_iff, beq_eq_false_iff_ne, ne_eq]
  omega

theorem refFromSep_none {s : List Nat}
    (h : ∀ c ∈ s, isSepChar c = false) : refFromSep s = none := by
  cases s with
  | nil => rfl
  | cons c rest =>
    show (if isSepChar c = true then (refAfterSep rest).map (· + 1) else none)
      = none
    rw [h c (List.mem_cons_self c rest)]
    simp

theorem refTryLetters_none {s : List Nat}
    (h : ∀ c ∈ s, isSepChar c = false) :
    ∀ k, refTryLetters s k = none := by
  intro k
  induction k with
  | zero => rfl
  | succ k ih =>
    unfold refTryLetters
    rw [refFromSep_none (fun c hc => h c (List.mem_of_mem_drop hc))]
    exact ih

theorem matchRef_none {s : List Nat}
    (h : ∀ c ∈ s, isSepChar c = false) : matchRef s = none := by
  cases s with
  | nil => rfl
  | cons c rest =>
    have hcore : refCore (c :: rest) = none :=
      refTryLetters_none h _
    have hcore' : refCore rest = none :=
      refTryLetters_none (fun a ha => h a (List.mem_cons_of_mem c ha)) _
    show (if isQuoteOpen c = true then
        match refCore rest with
        | some t => some (t + 1)
        | none => refCore (c :: rest)
      else refCore (c :: rest)) = none
    rw [hcore', hcore]
    split <;> rfl

theorem matchParen_none {s : List Nat}
    (h : ∀ c ∈ s, c ≠ 0x28 ∧ c ≠ 0x5B) : matchParen s = none := by
  cases s with
  | nil => rfl
  | cons c rest =>
    obtain ⟨h1, h2⟩ := h c (List.mem_cons_self c rest)
    show (if (c == 0x28 || c == 0x5B) = true then
        (parenCore rest).map (· + 1) else none) = none
    have hc : (c == 0x28 || c == 0x5B) = false := by
      simp only [Bool.or_eq_false_iff, beq_eq_false_iff_ne, ne_eq]
      exact ⟨h1, h2⟩
    rw [hc]
    simp

/-- If the matcher fails on every list whose characters all satisfy `P`,
then `replace` leaves a `P`-only list unchanged, whatever the fuel. -/
theorem replaceReFuel_zero {m : List Nat → Option Nat} (s : List Nat) :
    replaceReFuel m 0 s = s := by
  cases s <;> rfl

theorem replaceReFuel_cons {m : List Nat → Option Nat} {fuel : Nat}
    {c : Nat} {rest : List Nat} :
    replaceReFuel m (fuel + 1) (c :: rest) =
      match m (c :: rest) with
      | some L => 0x20 :: replaceReFuel m fuel (rest.drop (L - 1))
      | none => c :: replaceReFuel m fuel rest := rfl

theorem replaceReFuel_id {m : List Nat → Option Nat} {P : Nat → Prop}
    (hm : ∀ t : List Nat, (∀ c ∈ t, P c) → m t = none) :
    ∀ (f : Nat) (s : List Nat), (∀ c ∈ s, P c) → replaceReFuel m f s = s := by
  intro f
  induction f with
  | zero => intro s _; exact replaceReFuel_zero s
  | succ f ih =>
    intro s hs
    cases s with
    | nil => rfl
    | cons c rest =>
      rw [replaceReFuel_cons, hm (c :: rest) hs]
      rw [ih rest (fun a ha => hs a (List.mem_cons_of_mem c ha))]

theorem filterMap_fix {l : List Nat} {f : Nat → Option Nat}
    (h : ∀ c ∈ l, f c = some c) : l.filterMap f = l := by
  induction l with
  | nil => rfl
  | cons c rest ih =>
    rw [List.filterMap_cons, h c (List.mem_cons_self c rest),
      ih (fun a ha => h a (List.mem_cons_of_mem c ha))]

theorem sofitFold_fix {c : Nat} (h1 : isHebLetter c = true)
    (h2 : isSofit c = false) : sofitFold c = some c := by
  simp only [isSofit, Bool.or_eq_false_iff, beq_eq_false_iff_ne, ne_eq] at h2
  unfold sofitFold
  rw [if_neg (by simpa using h2.1.1.1.1), if_neg (by simpa using h2.1.1.1.2),
    if_neg (by simpa using h2.1.1.2), if_neg (by simpa using h2.1.2),
    if_neg (by simpa using h2.2), if_pos h1]

/-! ## Claim C9: idempotence of the normalizer -/

/-- On text whose characters all satisfy `P`, `replace` is the identity
whenever `P`-only lists never match. -/
theorem replaceRe_id {m : List Nat → Option Nat} {P : Nat → Prop}
    (hm : ∀ t : List Nat, (∀ c ∈ t, P c) → m t = none)
    {s : List Nat} (hs : ∀ c ∈ s, P c) : replaceRe m s = s :=
  replaceReFuel_id hm s.length s hs

/-- On text free of separators and opening parentheses/brackets, neither
reference pattern can match, and the two revisions of the normalizer
agree. -/
theorem normalizeHebrew_eq_v1 {s : List Nat}
    (h : ∀ c ∈ s, isSepChar c = false ∧ c ≠ 0x28 ∧ c ≠ 0x5B) :
    normalizeHebrew s = normalizeHebrewV1 s := by
  unfold normalizeHebrew normalizeHebrewV1
  rw [replaceRe_id (P := fun c => isSepChar c = false)
    (fun t ht => matchRef_none ht) (fun c hc => (h c hc).1)]
  rw [replaceRe_id (P := fun c => c ≠ 0x28 ∧ c ≠ 0x5B)
    (fun t ht => matchParen_none ht) (fun c hc => (h c hc).2)]

/-- C9: `normalizeHebrew` is idempotent — re-normalizing the canonical
form (re-interpreted as input text) reproduces it exactly. -/
theorem normalizeHebrew_idempotent (text : List Nat) :
    normalizeHebrew (normalizeHebrew text) = normalizeHebrew text := by
  have hall : ∀ c ∈ normalizeHebrew text,
      isHebLetter c = true ∧ isSofit c = false :=
    fun c hc => normalizeHebrew_mem hc
  rw [normalizeHebrew_eq_v1 (fun c hc => by
    have := (hall c hc).1
    simp only [isHebLetter, Bool.and_eq_true, decide_eq_true_eq] at this
    refine ⟨?_, by omega, by omega⟩
    simp only [isSepChar, Bool.or_eq_false_iff, beq_eq_false_iff_ne, ne_eq]
    omega)]
  unfold normalizeHebrewV1
  rw [List.filter_eq_self.mpr (fun c hc => by
    have := (hall c hc).1
    simp only [isHebLetter, Bool.and_eq_true, decide_eq_true_eq] at this
    simp only [isNiqqud, Bool.not_eq_eq_eq_not, Bool.not_true,
      Bool.and_eq_false_iff, decide_eq_false_iff_not]
    omega)]
  exact filterMap_fix (fun c hc => sofitFold_fix (hall c hc).1 (hall c hc).2)

/-! ## Claim C2: monotonicity of the canonical length

For the reference-aware `normalizeHebrew` the claim is false: extending a
span can complete a reference pattern, which deletes letters that were
already part of the canonical form.  For the text `אאא,ב` and start
offset `0`, the span of length 4 (`אאא,`) has canonical length 3 while
the span of length 5 (`אאא,ב`) matches the first reference pattern whole
and has canonical length 0. -/

/-- C2 counterexample: with `text = אאא,ב`, `i = 0`, `j = 4 ≤ k = 5`, the
canonical length of `text[i..j]` exceeds that of `text[i..k]`, so the
canonical length is not monotonically non-decreasing in the end offset. -/
theorem canonicalLength_not_monotone :
    ¬((normalizeHebrew (([0x05D0, 0x05D0, 0x05D0, 0x2C, 0x05D1].drop 0).take
        (4 - 0))).length ≤
      (normalizeHebrew (([0x05D0, 0x05D0, 0x05D0, 0x2C, 0x05D1].drop 0).take
        (5 - 0))).length) := by decide

theorem normalizeHebrewV1_append (s t : List Nat) :
    normalizeHebrewV1 (s ++ t) = normalizeHebrewV1 s ++ normalizeHebrewV1 t := by
  unfold normalizeHebrewV1
  rw [List.filter_append, List.filterMap_append]

/-- C2 amended: for the earlier revision's normalizer (no reference
stripping) the canonical length of `text[i..j]` is monotonically
non-decreasing in `j` for fixed `i`, and consequently once the canonical
length of a span exceeds `maxLength` every extension of it (same start)
also exceeds `maxLength`, so the early exit skips nothing. -/
theorem normalizeHebrewV1_take_mono (d : List Nat) {a b : Nat} (h : a ≤ b) :
    (normalizeHebrewV1 (d.take a)).length ≤
      (normalizeHebrewV1 (d.take b)).length := by
  have hsplit : d.take b = (d.take b).take a ++ (d.take b).drop a :=
    (List.take_append_drop _ _).symm
  have htake : d.take a = (d.take b).take a := by
    rw [List.take_take]
    congr 1
    omega
  calc (normalizeHebrewV1 (d.take a)).length
      = (normalizeHebrewV1 ((d.take b).take a)).length := by rw [htake]
    _ ≤ (normalizeHebrewV1 ((d.take b).take a)).length +
        (normalizeHebrewV1 ((d.take b).drop a)).length := by omega
    _ = (normalizeHebrewV1 (d.take b)).length := by
        conv_rhs => rw [hsplit, normalizeHebrewV1_append, List.length_append]

theorem canonicalLengthV1_monotone (text : List Nat) (i j k : Nat)
    (h : j ≤ k) :
    (normalizeHebrewV1 ((text.drop i).take (j - i))).length ≤
      (normalizeHebrewV1 ((text.drop i).take (k - i))).length ∧
    ∀ maxLength : Int,
      maxLength <
          ((normalizeHebrewV1 ((text.drop i).take (j - i))).length : Int) →
      maxLength <
          ((normalizeHebrewV1 ((text.drop i).take (k - i))).length : Int) := by
  have hmono : (normalizeHebrewV1 ((text.drop i).take (j - i))).length ≤
      (normalizeHebrewV1 ((text.drop i).take (k - i))).length :=
    normalizeHebrewV1_take_mono (text.drop i) (by omega)
  exact ⟨hmono, fun maxLength hlt => by omega⟩

/-- Witness for C2's amended statement at a concrete input. -/
theorem canonicalLengthV1_monotone_witness :
    2 ≤ 3 ∧
      (normalizeHebrewV1 (([0x05D0, 0x05D1, 0x05D0].drop 0).take
        (2 - 0))).length ≤
      (normalizeHebrewV1 (([0x05D0, 0x05D1, 0x05D0].drop 0).take
        (3 - 0))).length :=
  ⟨by decide,
    (canonicalLengthV1_monotone [0x05D0, 0x05D1, 0x05D0] 0 2 3 (by decide)).1⟩

/-! ## Claim C8: behaviour on malformed ranges

The claim is false for `minLength ≤ 0`: the palindrome predicate's
internal length-3 floor makes any `minLength ≤ 3` behave like
`minLength = 3`, so palindromes are still reported.  The empty result is
produced when `minLength > maxLength` or `maxLength ≤ 0`. -/

/-- C8 counterexample: with `minLength = 0 ≤ 0` the result is not empty —
the text `אבא` still yields its palindrome. -/
theorem findPalindromes_nonpositive_min_not_empty :
    findPalindromes [0x05D0, 0x05D1, 0x05D0] 0 5 ≠ [] := by decide

theorem scanFrom_succ (text : List Nat) (i : Nat) (minLength maxLength : Int)
    (j f : Nat) :
    scanFrom text i minLength maxLength j (f + 1) =
      if ((((text.drop i).take (j - i)).length : Int) > maxLength * 4) then []
      else if ((normalizeHebrew ((text.drop i).take (j - i))).length : Int) >
          maxLength then []
      else
        (if minLength ≤
              ((normalizeHebrew ((text.drop i).take (j - i))).length : Int) ∧
            isPalindrome (normalizeHebrew ((text.drop i).take (j - i))) =
              true then
          [⟨normalizeHebrew ((text.drop i).take (j - i)),
            trimJs ((text.drop i).take (j - i)),
            (normalizeHebrew ((text.drop i).take (j - i))).length⟩]
        else []) ++ scanFrom text i minLength maxLength (j + 1) f := rfl

theorem scanFrom_empty (text : List Nat) (i : Nat) (minLength maxLength : Int)
    (hcase : maxLength < minLength ∨ maxLength ≤ 0) :
    ∀ (f j : Nat), scanFrom text i minLength maxLength j f = [] := by
  intro f
  induction f with
  | zero => intro j; rfl
  | succ f ih =>
    intro j
    rw [scanFrom_succ]
    split_ifs with h1 h2 h3
    · rfl
    · rfl
    · exfalso
      obtain ⟨hmin, hpal⟩ := h3
      have h3l := isPalindrome_length hpal
      rcases hcase with hc | hc <;> omega
    · rw [ih (j + 1), List.append_nil]

theorem scanResults_empty (text : List Nat) (minLength maxLength : Int)
    (hcase : maxLength < minLength ∨ maxLength ≤ 0) :
    scanResults text minLength maxLength = [] := by
  unfold scanResults
  induction List.range text.length with
  | nil => rfl
  | cons a L ih =>
    rw [List.foldr_cons, ih]
    split <;> simp [scanFrom_empty text _ _ _ hcase]

/-- C8 amended: a range with `minLength > maxLength` or `maxLength ≤ 0`
produces an empty MatchSet, but a non-positive `minLength` does not: any
`minLength ≤ 3` behaves exactly like `minLength = 3`, because the
palindrome predicate's internal floor already demands canonical length at
least 3. -/
theorem findPalindromes_malformed_range (text : List Nat)
    (minLength maxLength : Int) :
    ((maxLength < minLength ∨ maxLength ≤ 0) →
      findPalindromes text minLength maxLength = []) ∧
    (minLength ≤ 3 →
      findPalindromes text minLength maxLength =
        findPalindromes text 3 maxLength) := by
  constructor
  · intro hcase
    unfold findPalindromes
    rw [scanResults_empty text _ _ hcase]
    rfl
  · intro hmin
    have hscan : ∀ (i f j : Nat),
        scanFrom text i minLength maxLength j f =
          scanFrom text i 3 maxLength j f := by
      intro i f
      induction f with
      | zero => intro j; rfl
      | succ f ih =>
        intro j
        rw [scanFrom_succ, scanFrom_succ, ih (j + 1)]
        have hiff : (minLength ≤
              ((normalizeHebrew ((text.drop i).take (j - i))).length : Int) ∧
            isPalindrome (normalizeHebrew ((text.drop i).take (j - i))) =
              true) ↔
            ((3 : Int) ≤
              ((normalizeHebrew ((text.drop i).take (j - i))).length : Int) ∧
            isPalindrome (normalizeHebrew ((text.drop i).take (j - i))) =
              true) := by
          constructor
          · rintro ⟨hm, hp⟩
            have h3 := isPalindrome_length hp
            exact ⟨by exact_mod_cast h3, hp⟩
          · rintro ⟨hm, hp⟩
            exact ⟨le_trans hmin hm, hp⟩
        exact if_congr Iff.rfl rfl (if_congr Iff.rfl rfl
          (congrArg (· ++ scanFrom text i 3 maxLength (j + 1) f)
            (if_congr hiff rfl rfl)))
    have hres : scanResults text minLength maxLength =
        scanResults text 3 maxLength := by
      unfold scanResults
      induction List.range text.length with
      | nil => rfl
      | cons a L ih => rw [List.foldr_cons, List.foldr_cons, ih, hscan]
    unfold findPalindromes
    rw [hres]

/-- Witness for C8's amended statement: a genuinely inverted range gives
the empty result, and `minLength = 0` coincides with `minLength = 3`. -/
theorem findPalindromes_malformed_range_witness :
    findPalindromes [0x05D0, 0x05D1, 0x05D0] 10 5 = [] ∧
      findPalindromes [0x05D0, 0x05D1, 0x05D0] 0 5 =
        findPalindromes [0x05D0, 0x05D1, 0x05D0] 3 5 :=
  ⟨(findPalindromes_malformed_range [0x05D0, 0x05D1, 0x05D0] 10 5).1
      (Or.inl (by decide)),
    (findPalindromes_malformed_range [0x05D0, 0x05D1, 0x05D0] 0 5).2
      (by decide)⟩

/-! ## Membership facts for the scanning and ranking stages -/

theorem mem_insertByLenDesc {m r : MatchR} {s : List MatchR} :
    m ∈ insertByLenDesc r s ↔ m = r ∨ m ∈ s := by
  induction s with
  | nil => simp [insertByLenDesc]
  | cons y ys ih =>
    unfold insertByLenDesc
    split
    · simp only [List.mem_cons, ih]
      tauto
    · simp only [List.mem_cons]

theorem mem_sortByLenDesc {m : MatchR} {l : List MatchR} :
    m ∈ sortByLenDesc l ↔ m ∈ l := by
  induction l with
  | nil => simp [sortByLenDesc]
  | cons x xs ih =>
    show m ∈ insertByLenDesc x (sortByLenDesc xs) ↔ _
    rw [mem_insertByLenDesc, List.mem_cons, ih]

theorem mem_insertMatch {m r : MatchR} {acc : List MatchR}
    (h : m ∈ insertMatch acc r) : m ∈ acc ∨ m = r := by
  unfold insertMatch at h
  split at h
  · rcases List.mem_append.mp h with h' | h'
    · exact Or.inl h'
    · exact Or.inr (List.mem_singleton.mp h')
  · split at h
    · obtain ⟨a, ha, hfa⟩ := List.mem_map.mp h
      by_cases hk : (a.normalized == r.normalized) = true
      · rw [if_pos hk] at hfa
        exact Or.inr hfa.symm
      · rw [if_neg hk] at hfa
        exact Or.inl (hfa ▸ ha)
    · exact Or.inl h

theorem mem_foldl_insertMatch {m : MatchR} :
    ∀ {rs acc : List MatchR}, m ∈ rs.foldl insertMatch acc →
      m ∈ acc ∨ m ∈ rs := by
  intro rs
  induction rs with
  | nil => intro acc h; exact Or.inl h
  | cons r rs ih =>
    intro acc h
    rcases @ih (insertMatch acc r) h with h' | h'
    · rcases mem_insertMatch h' with h'' | h''
      · exact Or.inl h''
      · exact Or.inr (h'' ▸ List.mem_cons_self r rs)
    · exact Or.inr (List.mem_cons_of_mem r h')

theorem scanFrom_mem {text : List Nat} {i : Nat} {minLength maxLength : Int}
    {m : MatchR} :
    ∀ {f j : Nat}, m ∈ scanFrom text i minLength maxLength j f →
      ∃ sub : List Nat,
        m.normalized = normalizeHebrew sub ∧ m.original = trimJs sub ∧
        m.length = (normalizeHebrew sub).length ∧
        minLength ≤ ((normalizeHebrew sub).length : Int) ∧
        ((normalizeHebrew sub).length : Int) ≤ maxLength ∧
        isPalindrome (normalizeHebrew sub) = true := by
  intro f
  induction f with
  | zero => intro j h; cases h
  | succ f ih =>
    intro j h
    rw [scanFrom_succ] at h
    split_ifs at h with h1 h2 h3
    · cases h
    · cases h
    · rcases List.mem_append.mp h with h' | h'
      · refine ⟨(text.drop i).take (j - i), ?_⟩
        rcases List.mem_singleton.mp h' with rfl
        exact ⟨rfl, rfl, rfl, h3.1, by omega, h3.2⟩
      · exact ih h'
    · rw [List.nil_append] at h
      exact ih h

theorem scanResults_mem {text : List Nat} {minLength maxLength : Int}
    {m : MatchR} (h : m ∈ scanResults text minLength maxLength) :
    ∃ sub : List Nat,
      m.normalized = normalizeHebrew sub ∧ m.original = trimJs sub ∧
      m.length = (normalizeHebrew sub).length ∧
      minLength ≤ ((normalizeHebrew sub).length : Int) ∧
      ((normalizeHebrew sub).length : Int) ≤ maxLength ∧
      isPalindrome (normalizeHebrew sub) = true := by
  unfold scanResults at h
  generalize List.range text.length = L at h
  induction L with
  | nil => cases h
  | cons a L ih =>
    rw [List.foldr_cons] at h
    rcases List.mem_append.mp h with h' | h'
    · split at h'
      · exact scanFrom_mem h'
      · cases h'
    · exact ih h'

/-- Decomposition of an output entry: every Match of the final MatchSet is
a recorded raw match. -/
theorem findPalindromes_mem {text : List Nat} {minLength maxLength : Int}
    {m : MatchR} (h : m ∈ findPalindromes text minLength maxLength) :
    m ∈ scanResults text minLength maxLength := by
  unfold findPalindromes at h
  rcases mem_foldl_insertMatch (mem_sortByLenDesc.mp h) with h' | h'
  · cases h'
  · exact mem_sortByLenDesc.mp h'

/-! ## Claim C5: soundness of reported matches -/

/-- C5: every Match returned by `findPalindromes` has
`minLength ≤ length ≤ maxLength`, its `length` equals the length of its
normalized form, and its normalized form is a palindrome. -/
theorem findPalindromes_sound (text : List Nat) (minLength maxLength : Int)
    (m : MatchR) (h : m ∈ findPalindromes text minLength maxLength) :
    minLength ≤ (m.length : Int) ∧ (m.length : Int) ≤ maxLength ∧
      m.length = m.normalized.length ∧ isPalindrome m.normalized = true := by
  obtain ⟨sub, hnorm, -, hlen, hmin, hmax, hpal⟩ :=
    scanResults_mem (findPalindromes_mem h)
  refine ⟨?_, ?_, ?_, ?_⟩
  · rw [hlen]; exact hmin
  · rw [hlen]; exact hmax
  · rw [hlen, hnorm]
  · rw [hnorm]; exact hpal

/-- Witness for C5: the text `אבא` with range `[3, 50]` returns exactly
its own palindrome, which satisfies all the stated bounds. -/
theorem findPalindromes_sound_witness :
    (⟨[0x05D0, 0x05D1, 0x05D0], [0x05D0, 0x05D1, 0x05D0], 3⟩ : MatchR) ∈
        findPalindromes [0x05D0, 0x05D1, 0x05D0] 3 50 ∧
      ((3 : Int) ≤ ((3 : Nat) : Int) ∧ ((3 : Nat) : Int) ≤ 50 ∧
        (3 : Nat) = [0x05D0, 0x05D1, 0x05D0].length ∧
        isPalindrome [0x05D0, 0x05D1, 0x05D0] = true) :=
  ⟨by decide,
    findPalindromes_sound [0x05D0, 0x05D1, 0x05D0] 3 50
      ⟨[0x05D0, 0x05D1, 0x05D0], [0x05D0, 0x05D1, 0x05D0], 3⟩ (by decide)⟩

/-! ## Claim C7: output ordered by non-increasing length -/

theorem pairwise_insertByLenDesc {r : MatchR} {s : List MatchR}
    (hs : s.Pairwise (fun a b => b.length ≤ a.length)) :
    (insertByLenDesc r s).Pairwise (fun a b => b.length ≤ a.length) := by
  induction s with
  | nil => simp [insertByLenDesc]
  | cons y ys ih =>
    rw [List.pairwise_cons] at hs
    unfold insertByLenDesc
    split
    · rw [List.pairwise_cons]
      refine ⟨fun z hz => ?_, ih hs.2⟩
      rcases mem_insertByLenDesc.mp hz with rfl | hz'
      · omega
      · exact hs.1 z hz'
    · rw [List.pairwise_cons]
      refine ⟨fun z hz => ?_, List.pairwise_cons.mpr hs⟩
      rcases List.mem_cons.mp hz with rfl | hz'
      · omega
      · have := hs.1 z hz'
        omega

theorem sortByLenDesc_sorted (l : List MatchR) :
    (sortByLenDesc l).Pairwise (fun a b => b.length ≤ a.length) := by
  induction l with
  | nil => simp [sortByLenDesc]
  | cons x xs ih => exact pairwise_insertByLenDesc ih

/-- C7: the MatchSet returned by `findPalindromes` is ordered by
non-increasing `length`: every entry's length is at least the length of
every later entry. -/
theorem findPalindromes_sorted (text : List Nat) (minLength maxLength : Int) :
    (findPalindromes text minLength maxLength).Pairwise
      (fun a b => b.length ≤ a.length) := by
  unfold findPalindromes
  exact sortByLenDesc_sorted _

/-! ## Claim C6: deduplication

The dedup pass groups the raw matches by normalized form and keeps, per
group, the entry with the shortest original text, preferring the earlier
one on ties.  Because every raw match in one group has the same `length`
(the length of the shared normalized form) and the pre-sort is stable,
processing order within a group equals scan order, so the kept entry is
the group's first shortest element in scan order. -/

theorem sortByLenDesc_perm (l : List MatchR) : (sortByLenDesc l).Perm l := by
  induction l with
  | nil => rfl
  | cons x xs ih =>
    have hins : ∀ (r : MatchR) (s : List MatchR),
        (insertByLenDesc r s).Perm (r :: s) := by
      intro r s
      induction s with
      | nil => rfl
      | cons y ys ihs =>
        unfold insertByLenDesc
        split
        · exact ((ihs.cons y).trans (List.Perm.swap r y ys)).symm.symm
        · rfl
    exact ((hins x (sortByLenDesc xs)).trans (ih.cons x))

theorem filter_insertByLenDesc {r : MatchR} {s : List MatchR}
    {p : MatchR → Bool}
    (hp : p r = true → ∀ y ∈ s, p y = true → ¬(r.length < y.length)) :
    (insertByLenDesc r s).filter p =
      if p r = true then r :: s.filter p else s.filter p := by
  induction s with
  | nil =>
    show List.filter p [r] = _
    rw [List.filter_cons]
  | cons y ys ih =>
    unfold insertByLenDesc
    split
    · rename_i hlt
      have ih' := ih (fun hr' y' hy' => hp hr' y' (List.mem_cons_of_mem y hy'))
      by_cases hpy : p y = true
      · by_cases hpr : p r = true
        · exact absurd hlt (hp hpr y (List.mem_cons_self y ys) hpy)
        · simp [List.filter_cons, hpy, hpr, ih']
      · by_cases hpr : p r = true
        · simp [List.filter_cons, hpy, hpr, ih']
        · simp [List.filter_cons, hpy, hpr, ih']
    · by_cases hpr : p r = true
      · simp [List.filter_cons, hpr]
      · simp [List.filter_cons, hpr]

/-- Stability of the sort on a key whose members share one length: the
subsequence of entries satisfying `p` is untouched. -/
theorem filter_sortByLenDesc {l : List MatchR} {p : MatchR → Bool} {K : Nat}
    (hK : ∀ a ∈ l, p a = true → a.length = K) :
    (sortByLenDesc l).filter p = l.filter p := by
  induction l with
  | nil => rfl
  | cons x xs ih =>
    show (insertByLenDesc x (sortByLenDesc xs)).filter p = _
    rw [filter_insertByLenDesc (fun hpx y hy hpy => by
      have hx := hK x (List.mem_cons_self x xs) hpx
      have hy' := hK y (List.mem_cons_of_mem x (mem_sortByLenDesc.mp hy)) hpy
      omega)]
    rw [ih (fun a ha hpa => hK a (List.mem_cons_of_mem x ha) hpa)]
    rw [List.filter_cons]


theorem insertMatch_pairwise {acc : List MatchR} {r : MatchR}
    (h : acc.Pairwise (fun a b => a.normalized ≠ b.normalized)) :
    (insertMatch acc r).Pairwise (fun a b => a.normalized ≠ b.normalized) := by
  unfold insertMatch
  split
  · rename_i hfind
    rw [List.find?_eq_none] at hfind
    rw [List.pairwise_append]
    refine ⟨h, List.pairwise_singleton _ _, fun a ha b hb => ?_⟩
    rw [List.mem_singleton] at hb
    subst hb
    intro hab
    exact hfind a ha (by rw [hab]; exact beq_self_eq_true _)
  · split
    · rw [List.pairwise_map]
      refine List.Pairwise.imp_of_mem (fun {a b} ha hb hab => ?_) h
      by_cases hka : (a.normalized == r.normalized) = true <;>
        by_cases hkb : (b.normalized == r.normalized) = true
      · exact absurd
          (by rw [beq_iff_eq.mp hka, beq_iff_eq.mp hkb] :
            a.normalized = b.normalized) hab
      · rw [if_pos hka, if_neg hkb, ← beq_iff_eq.mp hka]
        exact hab
      · rw [if_neg hka, if_pos hkb, ← beq_iff_eq.mp hkb]
        exact hab
      · rw [if_neg hka, if_neg hkb]
        exact hab
    · exact h

theorem filter_insertMatch_ne {acc : List MatchR} {r : MatchR} {c : List Nat}
    (hr : (r.normalized == c) = false) :
    (insertMatch acc r).filter (fun m => m.normalized == c) =
      acc.filter (fun m => m.normalized == c) := by
  unfold insertMatch
  split
  · rw [List.filter_append, List.filter_cons, hr]
    simp
  · split
    · rw [List.filter_map, List.filter_congr
        (q := fun m : MatchR => m.normalized == c) (fun m _ => by
          by_cases hk : (m.normalized == r.normalized) = true
          · show ((if (m.normalized == r.normalized) = true then r
              else m).normalized == c) = (m.normalized == c)
            rw [if_pos hk, hr, beq_iff_eq.mp hk, hr]
          · show ((if (m.normalized == r.normalized) = true then r
              else m).normalized == c) = (m.normalized == c)
            rw [if_neg hk])]
      have hfix : ∀ m ∈ acc.filter (fun m : MatchR => m.normalized == c),
          (if (m.normalized == r.normalized) = true then r else m) = m := by
        intro m hm
        have hkc := (List.mem_filter.mp hm).2
        by_cases hk : (m.normalized == r.normalized) = true
        · exfalso
          rw [beq_iff_eq.mp hk, hr] at hkc
          cases hkc
        · exact if_neg hk
      rw [List.map_congr_left hfix, List.map_id']
    · rfl

theorem insertMatch_none {acc : List MatchR} {r : MatchR}
    (hfind : acc.find? (fun m => m.normalized == r.normalized) = none) :
    insertMatch acc r = acc ++ [r] := by
  unfold insertMatch
  rw [hfind]

theorem insertMatch_some_lt {acc : List MatchR} {r ex : MatchR}
    (hfind : acc.find? (fun m => m.normalized == r.normalized) = some ex)
    (hlt : r.original.length < ex.original.length) :
    insertMatch acc r =
      acc.map (fun m =>
        if (m.normalized == r.normalized) = true then r else m) := by
  unfold insertMatch
  rw [hfind]
  exact if_pos hlt

theorem insertMatch_some_ge {acc : List MatchR} {r ex : MatchR}
    (hfind : acc.find? (fun m => m.normalized == r.normalized) = some ex)
    (hge : ¬(r.original.length < ex.original.length)) :
    insertMatch acc r = acc := by
  unfold insertMatch
  rw [hfind]
  exact if_neg hge

theorem filter_key_single {acc : List MatchR} {c : List Nat}
    {x : MatchR} {rest : List MatchR}
    (hu : acc.Pairwise (fun a b => a.normalized ≠ b.normalized))
    (heq : acc.filter (fun m => m.normalized == c) = x :: rest) :
    rest = [] := by
  cases rest with
  | nil => rfl
  | cons y t =>
    exfalso
    have hpw := hu.filter (fun m => m.normalized == c)
    rw [heq, List.pairwise_cons] at hpw
    have hx : x ∈ acc.filter (fun m => m.normalized == c) := by
      rw [heq]; exact List.mem_cons_self _ _
    have hy : y ∈ acc.filter (fun m => m.normalized == c) := by
      rw [heq]; exact List.mem_cons_of_mem _ (List.mem_cons_self _ _)
    have hxc := beq_iff_eq.mp (List.mem_filter.mp hx).2
    have hyc := beq_iff_eq.mp (List.mem_filter.mp hy).2
    exact hpw.1 y (List.mem_cons_self _ _) (hxc.trans hyc.symm)

theorem filter_eq_single_of_find? {acc : List MatchR} {k : List Nat}
    {ex : MatchR}
    (hu : acc.Pairwise (fun a b => a.normalized ≠ b.normalized))
    (hfind : acc.find? (fun m => m.normalized == k) = some ex) :
    acc.filter (fun m => m.normalized == k) = [ex] := by
  induction acc with
  | nil => cases hfind
  | cons a as ih =>
    rw [List.pairwise_cons] at hu
    rw [List.find?_cons] at hfind
    by_cases hk : (a.normalized == k) = true
    · rw [hk] at hfind
      have ha : a = ex := Option.some.inj hfind
      rw [List.filter_cons, if_pos hk, ha]
      have : as.filter (fun m => m.normalized == k) = [] := by
        rw [List.filter_eq_nil_iff]
        intro b hb hbk
        exact hu.1 b hb
          ((beq_iff_eq.mp (ha ▸ hk)).trans (beq_iff_eq.mp hbk).symm)
      rw [this]
    · rw [Bool.eq_false_iff.mpr hk] at hfind
      rw [List.filter_cons, if_neg hk]
      exact ih hu.2 hfind

theorem filter_insertMatch_found {acc : List MatchR} {r ex : MatchR}
    (hu : acc.Pairwise (fun a b => a.normalized ≠ b.normalized))
    (hfind : acc.find? (fun m => m.normalized == r.normalized) = some ex) :
    (acc.map (fun m =>
        if (m.normalized == r.normalized) = true then r else m)).filter
      (fun m => m.normalized == r.normalized) = [r] := by
  rw [List.filter_map, List.filter_congr
    (q := fun m : MatchR => m.normalized == r.normalized) (fun m _ => by
      by_cases hk : (m.normalized == r.normalized) = true
      · show ((if (m.normalized == r.normalized) = true then r
          else m).normalized == r.normalized) = (m.normalized == r.normalized)
        rw [if_pos hk, hk, beq_self_eq_true]
      · show ((if (m.normalized == r.normalized) = true then r
          else m).normalized == r.normalized) = (m.normalized == r.normalized)
        rw [if_neg hk])]
  rw [filter_eq_single_of_find? hu hfind, List.map_cons, List.map_nil,
    if_pos (List.find?_some hfind)]

/-- The per-group effect of the deduplication fold: for any normalized
form `c`, the surviving entries with that form are computed by
`dedupGroup` from the accumulator's group entries and the processed
list's group entries. -/
theorem filter_foldl_insertMatch (c : List Nat) :
    ∀ (rs acc : List MatchR),
      acc.Pairwise (fun a b => a.normalized ≠ b.normalized) →
      (rs.foldl insertMatch acc).filter (fun m => m.normalized == c) =
        dedupGroup (acc.filter (fun m => m.normalized == c))
          (rs.filter (fun m => m.normalized == c)) := by
  intro rs
  induction rs with
  | nil =>
    intro acc hu
    rw [List.foldl_nil, List.filter_nil]
    cases heq : acc.filter (fun m => m.normalized == c) with
    | nil => rfl
    | cons x rest =>
      have hrest : rest = [] := filter_key_single hu heq
      subst hrest
      rfl
  | cons r rs ih =>
    intro acc hu
    rw [List.foldl_cons, ih (insertMatch acc r) (insertMatch_pairwise hu),
      List.filter_cons]
    by_cases hr : (r.normalized == c) = true
    · have hc : r.normalized = c := beq_iff_eq.mp hr
      subst hc
      rw [if_pos hr]
      cases hfind : acc.find? (fun m => m.normalized == r.normalized) with
      | none =>
        have hnil : acc.filter (fun m => m.normalized == r.normalized) = [] :=
          List.filter_eq_nil_iff.mpr (List.find?_eq_none.mp hfind)
        rw [insertMatch_none hfind, List.filter_append, hnil,
          List.nil_append, List.filter_cons, if_pos (beq_self_eq_true _),
          List.filter_nil]
        rfl
      | some ex =>
        have hex : acc.filter (fun m => m.normalized == r.normalized) = [ex] :=
          filter_eq_single_of_find? hu hfind
        by_cases hlt : r.original.length < ex.original.length
        · rw [insertMatch_some_lt hfind hlt,
            filter_insertMatch_found hu hfind, hex]
          show [(rs.filter (fun m => m.normalized == r.normalized)).foldl
              pickRep r] =
            [((r :: rs.filter (fun m => m.normalized == r.normalized)).foldl
              pickRep ex)]
          rw [List.foldl_cons]
          have : pickRep ex r = r := if_pos hlt
          rw [this]
        · rw [insertMatch_some_ge hfind hlt, hex]
          show [(rs.filter (fun m => m.normalized == r.normalized)).foldl
              pickRep ex] =
            [((r :: rs.filter (fun m => m.normalized == r.normalized)).foldl
              pickRep ex)]
          rw [List.foldl_cons]
          have : pickRep ex r = ex := if_neg hlt
          rw [this]
    · rw [filter_insertMatch_ne (Bool.eq_false_iff.mpr hr), if_neg hr]

theorem foldl_insertMatch_pairwise (rs : List MatchR) :
    ∀ acc : List MatchR,
      acc.Pairwise (fun a b => a.normalized ≠ b.normalized) →
      (rs.foldl insertMatch acc).Pairwise
        (fun a b => a.normalized ≠ b.normalized) := by
  induction rs with
  | nil => exact fun acc h => h
  | cons r rs ih => exact fun acc h => ih _ (insertMatch_pairwise h)

theorem findPalindromes_filter_key (text : List Nat)
    (minLength maxLength : Int) (c : List Nat) :
    (findPalindromes text minLength maxLength).filter
        (fun m => m.normalized == c) =
      groupRep ((scanResults text minLength maxLength).filter
        (fun m => m.normalized == c)) := by
  have hKraw : ∀ a ∈ scanResults text minLength maxLength,
      (a.normalized == c) = true → a.length = c.length := by
    intro a ha hk
    obtain ⟨sub, hn, -, hl, -, -, -⟩ := scanResults_mem ha
    rw [hl, ← hn, beq_iff_eq.mp hk]
  show (sortByLenDesc _).filter _ = _
  rw [filter_sortByLenDesc (K := c.length) (fun a ha hk => by
    rcases mem_foldl_insertMatch ha with h' | h'
    · cases h'
    · exact hKraw a (mem_sortByLenDesc.mp h') hk)]
  rw [filter_foldl_insertMatch c _ [] List.Pairwise.nil]
  rw [filter_sortByLenDesc (K := c.length) hKraw]
  rfl

/-- C6: no two entries of the final MatchSet share a normalized form, and
for each normalized form `c` present among the raw matches the MatchSet
keeps exactly one representative — the raw match with the shortest
original text, the first one encountered (in scan order) on ties — while
forms absent from the raw matches are absent from the MatchSet. -/
theorem findPalindromes_dedup (text : List Nat) (minLength maxLength : Int)
    (c : List Nat) :
    (findPalindromes text minLength maxLength).Pairwise
      (fun a b => a.normalized ≠ b.normalized) ∧
    (findPalindromes text minLength maxLength).filter
        (fun m => m.normalized == c) =
      groupRep ((scanResults text minLength maxLength).filter
        (fun m => m.normalized == c)) := by
  have huniq := foldl_insertMatch_pairwise
    (sortByLenDesc (scanResults text minLength maxLength)) [] List.Pairwise.nil
  exact ⟨((sortByLenDesc_perm _).pairwise_iff
      (fun hxy => Ne.symm hxy)).mpr huniq,
    findPalindromes_filter_key text minLength maxLength c⟩

/-! ## Claim C10: whitespace at the edges does not affect the canonical
form

`findPalindromes` stores the trimmed span as `original` but computed
`normalized` from the untrimmed span.  Whitespace characters belong to no
character class of either reference pattern and are eventually filtered
out, so normalizing the trimmed span gives the same canonical form. -/

theorem isJsSpace_classes {c : Nat} (h : isJsSpace c = true) :
    isHebLetter c = false ∧ isSepChar c = false ∧ isQuoteOpen c = false ∧
    isQuoteClose c = false ∧ c ≠ 0x28 ∧ c ≠ 0x5B ∧ c ≠ 0x29 ∧ c ≠ 0x5D ∧
    isNiqqud c = false ∧ sofitFold c = none := by
  simp only [isJsSpace, Bool.or_eq_true, beq_iff_eq, Bool.and_eq_true,
    decide_eq_true_eq] at h
  have hc : c ≤ 0xD ∨ c = 0x20 ∨ c = 0xA0 ∨ c = 0x1680 ∨
      (0x2000 ≤ c ∧ c ≤ 0x200A) ∨ c = 0x2028 ∨ c = 0x2029 ∨ c = 0x202F ∨
      c = 0x205F ∨ c = 0x3000 ∨ c = 0xFEFF := by omega
  refine ⟨?_, ?_, ?_, ?_, by omega, by omega, by omega, by omega, ?_, ?_⟩
  · simp only [isHebLetter, Bool.and_eq_false_iff, decide_eq_false_iff_not]
    omega
  · simp only [isSepChar, Bool.or_eq_false_iff, beq_eq_false_iff_ne, ne_eq]
    omega
  · simp only [isQuoteOpen, Bool.or_eq_false_iff, beq_eq_false_iff_ne, ne_eq]
    omega
  · simp only [isQuoteClose, Bool.or_eq_false_iff, beq_eq_false_iff_ne, ne_eq]
    omega
  · simp only [isNiqqud, Bool.and_eq_false_iff, decide_eq_false_iff_not]
    omega
  · unfold sofitFold
    rw [if_neg (by simp; omega), if_neg (by simp; omega),
      if_neg (by simp; omega), if_neg (by simp; omega),
      if_neg (by simp; omega),
      if_neg (by simp only [isHebLetter, Bool.and_eq_true,
        decide_eq_true_eq]; omega)]

theorem takeWhile_append_ws {p : Nat → Bool} {t ws : List Nat}
    (hws : ∀ c ∈ ws, p c = false) :
    (t ++ ws).takeWhile p = t.takeWhile p := by
  induction t with
  | nil =>
    rw [List.nil_append]
    cases ws with
    | nil => rfl
    | cons w ws' =>
      rw [List.takeWhile_cons, hws w (List.mem_cons_self _ _)]
      rfl
  | cons a t ih =>
    rw [List.cons_append, List.takeWhile_cons, List.takeWhile_cons]
    split
    · rw [ih]
    · rfl

theorem lettersRun_append_ws {t ws : List Nat}
    (hws : ∀ c ∈ ws, isJsSpace c = true) :
    lettersRun (t ++ ws) = lettersRun t := by
  unfold lettersRun
  rw [takeWhile_append_ws (fun c hc => (isJsSpace_classes (hws c hc)).1)]

theorem lettersRun_le (s : List Nat) : lettersRun s ≤ s.length :=
  (List.takeWhile_sublist _).length_le

theorem refAfterSep_ws {t ws : List Nat}
    (hws : ∀ c ∈ ws, isJsSpace c = true) :
    refAfterSep (t ++ ws) = refAfterSep t := by
  unfold refAfterSep
  rw [lettersRun_append_ws hws]
  by_cases hk0 : (min 3 (lettersRun t) == 0) = true
  · rw [if_pos hk0, if_pos hk0]
  · rw [if_neg hk0, if_neg hk0,
      List.drop_append_eq_append_drop]
    cases hdt : t.drop (min 3 (lettersRun t)) with
    | nil =>
      rw [List.nil_append]
      cases hdw : ws.drop (min 3 (lettersRun t) - t.length) with
      | nil => rfl
      | cons w ws' =>
        have hw : isQuoteClose w = false :=
          (isJsSpace_classes (hws w
            (List.mem_of_mem_drop (hdw ▸ List.mem_cons_self _ _)))).2.2.2.1
        show (if isQuoteClose w = true then
            some (min 3 (lettersRun t) + 1) else some (min 3 (lettersRun t)))
          = some (min 3 (lettersRun t))
        exact if_neg (by rw [hw]; exact Bool.false_ne_true)
    | cons d dt =>
      rw [List.cons_append]
      rfl

theorem refFromSep_ws {t ws : List Nat}
    (hws : ∀ c ∈ ws, isJsSpace c = true) :
    refFromSep (t ++ ws) = refFromSep t := by
  cases t with
  | nil =>
    rw [List.nil_append]
    exact refFromSep_none
      (fun c hc => (isJsSpace_classes (hws c hc)).2.1)
  | cons c rest =>
    show (if isSepChar c = true then
        (refAfterSep (rest ++ ws)).map (· + 1) else none) = _
    rw [refAfterSep_ws hws]
    rfl

theorem refTryLetters_succ (s : List Nat) (k : Nat) :
    refTryLetters s (k + 1) =
      match refFromSep (s.drop (k + 1)) with
      | some t => some (k + 1 + t)
      | none => refTryLetters s k := rfl

theorem refTryLetters_ws {t ws : List Nat}
    (hws : ∀ c ∈ ws, isJsSpace c = true) :
    ∀ k, refTryLetters (t ++ ws) k = refTryLetters t k := by
  intro k
  induction k with
  | zero => rfl
  | succ k ih =>
    rw [refTryLetters_succ, refTryLetters_succ,
      List.drop_append_eq_append_drop,
      refFromSep_ws (fun c hc => hws c (List.mem_of_mem_drop hc))]
    cases refFromSep (t.drop (k + 1)) with
    | some u => rfl
    | none => exact ih

theorem refCore_ws {t ws : List Nat}
    (hws : ∀ c ∈ ws, isJsSpace c = true) :
    refCore (t ++ ws) = refCore t := by
  unfold refCore
  rw [lettersRun_append_ws hws, refTryLetters_ws hws]

theorem matchRef_ws {t ws : List Nat}
    (hws : ∀ c ∈ ws, isJsSpace c = true) :
    matchRef (t ++ ws) = matchRef t := by
  cases t with
  | nil =>
    rw [List.nil_append]
    exact matchRef_none (fun c hc => (isJsSpace_classes (hws c hc)).2.1)
  | cons c rest =>
    show (if isQuoteOpen c = true then
        match refCore (rest ++ ws) with
        | some u => some (u + 1)
        | none => refCore ((c :: rest) ++ ws)
      else refCore ((c :: rest) ++ ws)) = _
    rw [refCore_ws hws, refCore_ws hws]
    rfl

theorem parenTryClose_succ (s : List Nat) (k : Nat) :
    parenTryClose s (k + 1) =
      match (s.drop (k + 1)).head? with
      | some c =>
        if c == 0x29 || c == 0x5D then some (k + 2) else parenTryClose s k
      | none => parenTryClose s k := rfl

theorem parenTryClose_ws {t ws : List Nat}
    (hws : ∀ c ∈ ws, isJsSpace c = true) :
    ∀ k, parenTryClose (t ++ ws) k = parenTryClose t k := by
  intro k
  induction k with
  | zero => rfl
  | succ k ih =>
    rw [parenTryClose_succ, parenTryClose_succ,
      List.drop_append_eq_append_drop]
    cases hdt : t.drop (k + 1) with
    | nil =>
      rw [List.nil_append]
      cases hdw : ws.drop (k + 1 - t.length) with
      | nil => exact ih
      | cons w ws' =>
        have hw := isJsSpace_classes (hws w
          (List.mem_of_mem_drop (hdw ▸ List.mem_cons_self _ _)))
        show (if (w == 0x29 || w == 0x5D) = true then some (k + 2)
          else parenTryClose (t ++ ws) k) = parenTryClose t k
        rw [if_neg (by
          simp only [Bool.or_eq_true, beq_iff_eq]
          rintro (rfl | rfl)
          · exact hw.2.2.2.2.2.2.1 rfl
          · exact hw.2.2.2.2.2.2.2.1 rfl)]
        exact ih
    | cons d dt =>
      rw [List.cons_append]
      show (if (d == 0x29 || d == 0x5D) = true then some (k + 2)
          else parenTryClose (t ++ ws) k) =
        (if (d == 0x29 || d == 0x5D) = true then some (k + 2)
          else parenTryClose t k)
      split
      · rfl
      · exact ih

theorem parenClose_ws {t ws : List Nat}
    (hws : ∀ c ∈ ws, isJsSpace c = true) :
    parenClose (t ++ ws) = parenClose t := by
  unfold parenClose
  rw [lettersRun_append_ws hws, parenTryClose_ws hws]

theorem parenTrySpaces_succ (s : List Nat) (m : Nat) :
    parenTrySpaces s (m + 1) =
      match parenClose (s.drop (m + 1)) with
      | some t => some (m + 1 + t)
      | none => parenTrySpaces s m := rfl

theorem parenTrySpaces_ws {t ws : List Nat}
    (hws : ∀ c ∈ ws, isJsSpace c = true) :
    ∀ m, parenTrySpaces (t ++ ws) m = parenTrySpaces t m := by
  intro m
  induction m with
  | zero => rfl
  | succ m ih =>
    rw [parenTrySpaces_succ, parenTrySpaces_succ,
      List.drop_append_eq_append_drop,
      parenClose_ws (fun c hc => hws c (List.mem_of_mem_drop hc))]
    cases parenClose (t.drop (m + 1)) with
    | some u => rfl
    | none => exact ih

theorem takeWhile_allspace_heb {s : List Nat}
    (hall : ∀ c ∈ s, isJsSpace c = true) : s.takeWhile isHebLetter = [] := by
  cases s with
  | nil => rfl
  | cons a s' =>
    rw [List.takeWhile_cons,
      (isJsSpace_classes (hall a (List.mem_cons_self _ _))).1]
    rfl

theorem parenClose_allspace {s : List Nat}
    (hall : ∀ c ∈ s, isJsSpace c = true) : parenClose s = none := by
  unfold parenClose lettersRun
  rw [takeWhile_allspace_heb hall]
  rfl

theorem parenTrySpaces_allspace {s : List Nat}
    (hall : ∀ c ∈ s, isJsSpace c = true) :
    ∀ m, parenTrySpaces s m = none := by
  intro m
  induction m with
  | zero => rfl
  | succ m ih =>
    rw [parenTrySpaces_succ,
      parenClose_allspace (fun c hc => hall c (List.mem_of_mem_drop hc))]
    exact ih

theorem takeWhile_append_exists {p : Nat → Bool} {u v : List Nat}
    (h : ∃ x ∈ u, p x = false) :
    (u ++ v).takeWhile p = u.takeWhile p := by
  induction u with
  | nil =>
    obtain ⟨x, hx, -⟩ := h
    cases hx
  | cons a u' ih =>
    rw [List.cons_append, List.takeWhile_cons, List.takeWhile_cons]
    by_cases ha : p a = true
    · rw [if_pos ha, if_pos ha]
      obtain ⟨x, hx, hpx⟩ := h
      rcases List.mem_cons.mp hx with rfl | hx'
      · rw [ha] at hpx
        cases hpx
      · rw [ih ⟨x, hx', hpx⟩]
    · rw [if_neg ha, if_neg ha]

/-- The `\s+`-then-tail stage agrees on a span with trailing whitespace,
whatever portion of the trailing whitespace its greedy run swallows. -/
theorem parenSpacesStage_ws {u ws : List Nat}
    (hws : ∀ c ∈ ws, isJsSpace c = true) :
    parenTrySpaces (u ++ ws) (spacesRun (u ++ ws)) =
      parenTrySpaces u (spacesRun u) := by
  by_cases hall : ∀ c ∈ u, isJsSpace c = true
  · rw [parenTrySpaces_allspace (fun c hc => by
      rcases List.mem_append.mp hc with h' | h'
      · exact hall c h'
      · exact hws c h'),
      parenTrySpaces_allspace hall]
  · push_neg at hall
    obtain ⟨x, hx, hpx⟩ := hall
    have hrun : spacesRun (u ++ ws) = spacesRun u := by
      unfold spacesRun
      rw [takeWhile_append_exists ⟨x, hx, Bool.eq_false_iff.mpr hpx⟩]
    rw [hrun, parenTrySpaces_ws hws]

theorem parenTryLetters_succ (s : List Nat) (k : Nat) :
    parenTryLetters s (k + 1) =
      match parenTrySpaces (s.drop (k + 1)) (spacesRun (s.drop (k + 1))) with
      | some t => some (k + 1 + t)
      | none => parenTryLetters s k := rfl

theorem parenTryLetters_ws {t ws : List Nat}
    (hws : ∀ c ∈ ws, isJsSpace c = true) :
    ∀ k, parenTryLetters (t ++ ws) k = parenTryLetters t k := by
  intro k
  induction k with
  | zero => rfl
  | succ k ih =>
    rw [parenTryLetters_succ, parenTryLetters_succ,
      List.drop_append_eq_append_drop,
      parenSpacesStage_ws (fun c hc => hws c (List.mem_of_mem_drop hc))]
    cases parenTrySpaces (t.drop (k + 1)) (spacesRun (t.drop (k + 1))) with
    | some u => rfl
    | none => exact ih

theorem parenCore_ws {t ws : List Nat}
    (hws : ∀ c ∈ ws, isJsSpace c = true) :
    parenCore (t ++ ws) = parenCore t := by
  unfold parenCore
  rw [lettersRun_append_ws hws, parenTryLetters_ws hws]

theorem matchParen_ws {t ws : List Nat}
    (hws : ∀ c ∈ ws, isJsSpace c = true) :
    matchParen (t ++ ws) = matchParen t := by
  cases t with
  | nil =>
    rw [List.nil_append]
    exact matchParen_none (fun c hc =>
      ⟨(isJsSpace_classes (hws c hc)).2.2.2.2.1,
        (isJsSpace_classes (hws c hc)).2.2.2.2.2.1⟩)
  | cons c rest =>
    show (if (c == 0x28 || c == 0x5B) = true then
        (parenCore (rest ++ ws)).map (· + 1) else none) = _
    rw [parenCore_ws hws]
    rfl

theorem refAfterSep_eq (s : List Nat) :
    refAfterSep s =
      if (min 3 (lettersRun s) == 0) = true then none
      else
        match (s.drop (min 3 (lettersRun s))).head? with
        | some c =>
          if isQuoteClose c = true then some (min 3 (lettersRun s) + 1)
          else some (min 3 (lettersRun s))
        | none => some (min 3 (lettersRun s)) := rfl

theorem refAfterSep_bound {s : List Nat} {u : Nat}
    (h : refAfterSep s = some u) : u ≤ s.length := by
  by_cases hk0 : (min 3 (lettersRun s) == 0) = true
  · rw [refAfterSep_eq, if_pos hk0] at h
    cases h
  · rw [refAfterSep_eq, if_neg hk0] at h
    have hkle : min 3 (lettersRun s) ≤ s.length :=
      le_trans (min_le_right _ _) (lettersRun_le s)
    cases hh : (s.drop (min 3 (lettersRun s))).head? with
    | some c =>
      simp only [hh] at h
      have hlt : min 3 (lettersRun s) < s.length := by
        by_contra hge
        rw [List.drop_eq_nil_of_le (by omega)] at hh
        cases hh
      split_ifs at h with hc <;> (rw [Option.some.injEq] at h; omega)
    | none =>
      simp only [hh, Option.some.injEq] at h
      omega

theorem refFromSep_bound {s : List Nat} {u : Nat}
    (h : refFromSep s = some u) : u ≤ s.length := by
  cases s with
  | nil => cases h
  | cons c rest =>
    simp only [refFromSep] at h
    split_ifs at h with hc
    · cases ha : refAfterSep rest with
      | none => rw [ha] at h; cases h
      | some v =>
        rw [ha] at h
        have hvu : v + 1 = u := by simpa using h
        have := refAfterSep_bound ha
        simp only [List.length_cons]
        omega

theorem refTryLetters_bound {s : List Nat} {u : Nat} :
    ∀ {k : Nat}, refTryLetters s k = some u → u ≤ s.length := by
  intro k
  induction k with
  | zero => intro h; cases h
  | succ k ih =>
    intro h
    rw [refTryLetters_succ] at h
    cases hf : refFromSep (s.drop (k + 1)) with
    | some v =>
      rw [hf] at h
      rw [Option.some.injEq] at h
      have hb := refFromSep_bound hf
      rw [List.length_drop] at hb
      have hne : k + 1 ≤ s.length := by
        by_contra hgt
        rw [List.drop_eq_nil_of_le (by omega)] at hf
        cases hf
      omega
    | none =>
      rw [hf] at h
      exact ih h

theorem matchRef_bound {s : List Nat} {L : Nat}
    (h : matchRef s = some L) : L ≤ s.length := by
  cases s with
  | nil => cases h
  | cons c rest =>
    have hcore : ∀ {u}, refCore (c :: rest) = some u → u ≤ rest.length + 1 :=
      fun hu => by
        have := refTryLetters_bound hu
        simpa using this
    simp only [matchRef] at h
    split_ifs at h with hq
    · cases hr : refCore rest with
      | some v =>
        rw [hr] at h
        rw [Option.some.injEq] at h
        have := refTryLetters_bound hr
        simp only [List.length_cons]
        omega
      | none =>
        rw [hr] at h
        simpa using hcore h
    · simpa using hcore h

theorem parenTryClose_bound {s : List Nat} {u : Nat} :
    ∀ {k : Nat}, parenTryClose s k = some u → u ≤ s.length := by
  intro k
  induction k with
  | zero => intro h; cases h
  | succ k ih =>
    intro h
    rw [parenTryClose_succ] at h
    cases hh : (s.drop (k + 1)).head? with
    | some c =>
      simp only [hh] at h
      have hlt : k + 1 < s.length := by
        by_contra hge
        rw [List.drop_eq_nil_of_le (by omega)] at hh
        cases hh
      split_ifs at h with hc
      · rw [Option.some.injEq] at h
        omega
      · exact ih h
    | none =>
      simp only [hh] at h
      exact ih h

theorem parenClose_bound {s : List Nat} {u : Nat}
    (h : parenClose s = some u) : u ≤ s.length :=
  parenTryClose_bound h

theorem parenTrySpaces_bound {s : List Nat} {u : Nat} :
    ∀ {m : Nat}, parenTrySpaces s m = some u → u ≤ s.length := by
  intro m
  induction m with
  | zero => intro h; cases h
  | succ m ih =>
    intro h
    rw [parenTrySpaces_succ] at h
    cases hf : parenClose (s.drop (m + 1)) with
    | some v =>
      rw [hf] at h
      rw [Option.some.injEq] at h
      have hb := parenClose_bound hf
      rw [List.length_drop] at hb
      have hne : m + 1 ≤ s.length := by
        by_contra hgt
        rw [List.drop_eq_nil_of_le (by omega)] at hf
        cases hf
      omega
    | none =>
      rw [hf] at h
      exact ih h

theorem parenTryLetters_bound {s : List Nat} {u : Nat} :
    ∀ {k : Nat}, parenTryLetters s k = some u → u ≤ s.length := by
  intro k
  induction k with
  | zero => intro h; cases h
  | succ k ih =>
    intro h
    rw [parenTryLetters_succ] at h
    cases hf : parenTrySpaces (s.drop (k + 1))
        (spacesRun (s.drop (k + 1))) with
    | some v =>
      rw [hf] at h
      rw [Option.some.injEq] at h
      have hb := parenTrySpaces_bound hf
      rw [List.length_drop] at hb
      have hne : k + 1 ≤ s.length := by
        by_contra hgt
        rw [List.drop_eq_nil_of_le (by omega)] at hf
        rw [parenTrySpaces_allspace (fun c hc => absurd hc
          (List.not_mem_nil c))] at hf
        cases hf
      omega
    | none =>
      rw [hf] at h
      exact ih h

theorem matchParen_bound {s : List Nat} {L : Nat}
    (h : matchParen s = some L) : L ≤ s.length := by
  cases s with
  | nil => cases h
  | cons c rest =>
    simp only [matchParen] at h
    split_ifs at h with hq
    · cases hr : parenCore rest with
      | some v =>
        rw [hr] at h
        have hvu : v + 1 = L := by simpa using h
        have := parenTryLetters_bound hr
        simp only [List.length_cons]
        omega
      | none => rw [hr] at h; cases h

theorem replaceReFuel_congr {m : List Nat → Option Nat} :
    ∀ (f g : Nat) (s : List Nat), s.length ≤ f → s.length ≤ g →
      replaceReFuel m f s = replaceReFuel m g s := by
  intro f
  induction f with
  | zero =>
    intro g s hf hg
    have : s = [] := List.eq_nil_of_length_eq_zero (by omega)
    subst this
    rw [replaceReFuel_zero]
    cases g <;> rfl
  | succ f ih =>
    intro g s hf hg
    cases s with
    | nil => cases g <;> rfl
    | cons c rest =>
      cases g with
      | zero => simp at hg
      | succ g' =>
        rw [replaceReFuel_cons, replaceReFuel_cons]
        cases m (c :: rest) with
        | some L =>
          show 0x20 :: replaceReFuel m f (rest.drop (L - 1)) =
            0x20 :: replaceReFuel m g' (rest.drop (L - 1))
          rw [ih g' (rest.drop (L - 1)) (by
              rw [List.length_drop]
              simp only [List.length_cons] at hf
              omega)
            (by
              rw [List.length_drop]
              simp only [List.length_cons] at hg
              omega)]
        | none =>
          show c :: replaceReFuel m f rest = c :: replaceReFuel m g' rest
          rw [ih g' rest (by
              simp only [List.length_cons] at hf
              omega)
            (by
              simp only [List.length_cons] at hg
              omega)]

theorem replaceReFuel_append_ws {m : List Nat → Option Nat} {ws : List Nat}
    (hagree : ∀ t : List Nat, m (t ++ ws) = m t)
    (hnone : ∀ s : List Nat, (∀ c ∈ s, isJsSpace c = true) → m s = none)
    (hbound : ∀ t L, m t = some L → L ≤ t.length)
    (hws : ∀ c ∈ ws, isJsSpace c = true) :
    ∀ (f : Nat) (s : List Nat),
      replaceReFuel m f (s ++ ws) = replaceReFuel m f s ++ ws := by
  intro f
  induction f with
  | zero =>
    intro s
    rw [replaceReFuel_zero, replaceReFuel_zero]
  | succ f ih =>
    intro s
    cases s with
    | nil =>
      rw [List.nil_append,
        replaceReFuel_id (P := fun c => isJsSpace c = true) hnone _ _ hws]
      rfl
    | cons c rest =>
      rw [List.cons_append, replaceReFuel_cons, replaceReFuel_cons,
        show m (c :: (rest ++ ws)) = m (c :: rest) from hagree (c :: rest)]
      cases hm : m (c :: rest) with
      | none =>
        show c :: replaceReFuel m f (rest ++ ws) =
          (c :: replaceReFuel m f rest) ++ ws
        rw [List.cons_append, ih rest]
      | some L =>
        have hL := hbound _ _ hm
        simp only [List.length_cons] at hL
        show 0x20 :: replaceReFuel m f ((rest ++ ws).drop (L - 1)) =
          (0x20 :: replaceReFuel m f (rest.drop (L - 1))) ++ ws
        rw [List.cons_append, List.drop_append_eq_append_drop,
          show L - 1 - rest.length = 0 from by omega, List.drop_zero,
          ih (rest.drop (L - 1))]

theorem replaceReFuel_lead_ws {m : List Nat → Option Nat}
    (hhead : ∀ (c : Nat) (s' : List Nat), isJsSpace c = true →
      m (c :: s') = none) :
    ∀ (ws : List Nat), (∀ c ∈ ws, isJsSpace c = true) →
      ∀ (f : Nat) (s : List Nat),
        replaceReFuel m f (ws ++ s) =
          ws ++ replaceReFuel m (f - ws.length) s := by
  intro ws
  induction ws with
  | nil =>
    intro _ f s
    rw [List.nil_append, List.nil_append]
    rfl
  | cons w ws' ih =>
    intro hws f s
    cases f with
    | zero =>
      rw [replaceReFuel_zero, Nat.zero_sub, replaceReFuel_zero]
    | succ f' =>
      rw [List.cons_append, replaceReFuel_cons,
        hhead w (ws' ++ s) (hws w (List.mem_cons_self _ _)),
        ih (fun c hc => hws c (List.mem_cons_of_mem _ hc)) f' s]
      simp only [List.length_cons, List.cons_append]
      rw [show f' + 1 - (ws'.length + 1) = f' - ws'.length from by omega]

theorem matchRef_cons_space {c : Nat} {s' : List Nat}
    (h : isJsSpace c = true) : matchRef (c :: s') = none := by
  have hcls := isJsSpace_classes h
  have hrun : lettersRun (c :: s') = 0 := by
    unfold lettersRun
    rw [List.takeWhile_cons, hcls.1]
    rfl
  have hcore : refCore (c :: s') = none := by
    unfold refCore
    rw [hrun]
    rfl
  show (if isQuoteOpen c = true then
      match refCore s' with
      | some t => some (t + 1)
      | none => refCore (c :: s')
    else refCore (c :: s')) = none
  rw [if_neg (by rw [hcls.2.2.1]; exact Bool.false_ne_true)]
  exact hcore

theorem matchParen_cons_space {c : Nat} {s' : List Nat}
    (h : isJsSpace c = true) : matchParen (c :: s') = none := by
  have hcls := isJsSpace_classes h
  show (if (c == 0x28 || c == 0x5B) = true then
      (parenCore s').map (· + 1) else none) = none
  rw [if_neg (by
    simp only [Bool.or_eq_true, beq_iff_eq]
    rintro (rfl | rfl)
    · exact hcls.2.2.2.2.1 rfl
    · exact hcls.2.2.2.2.2.1 rfl)]

/-- Padding a span with leading and trailing whitespace leaves the
pattern-substitution stage acting on the padded middle only. -/
theorem replaceRe_pad {m : List Nat → Option Nat}
    (hnone : ∀ s : List Nat, (∀ c ∈ s, isJsSpace c = true) → m s = none)
    (hhead : ∀ (c : Nat) (s' : List Nat), isJsSpace c = true →
      m (c :: s') = none)
    (hagree : ∀ (t ws : List Nat), (∀ c ∈ ws, isJsSpace c = true) →
      m (t ++ ws) = m t)
    (hbound : ∀ t L, m t = some L → L ≤ t.length)
    {ws1 ws2 core : List Nat}
    (h1 : ∀ c ∈ ws1, isJsSpace c = true) (h2 : ∀ c ∈ ws2, isJsSpace c = true) :
    replaceRe m (ws1 ++ core ++ ws2) = ws1 ++ replaceRe m core ++ ws2 := by
  unfold replaceRe
  rw [List.append_assoc,
    replaceReFuel_lead_ws hhead ws1 h1 _ (core ++ ws2),
    replaceReFuel_append_ws (fun t => hagree t ws2 h2) hnone hbound h2,
    replaceReFuel_congr _ core.length core (by
      simp only [List.length_append]
      omega) (le_refl _),
    List.append_assoc]

theorem trimJs_decomp (s : List Nat) :
    ∃ ws1 ws2 : List Nat,
      s = ws1 ++ (trimJs s ++ ws2) ∧
      (∀ c ∈ ws1, isJsSpace c = true) ∧
      (∀ c ∈ ws2, isJsSpace c = true) := by
  refine ⟨s.takeWhile isJsSpace,
    ((s.dropWhile isJsSpace).reverse.takeWhile isJsSpace).reverse,
    ?_, ?_, ?_⟩
  · unfold trimJs
    conv_lhs => rw [← List.takeWhile_append_dropWhile isJsSpace s]
    congr 1
    conv_lhs => rw [← List.reverse_reverse (s.dropWhile isJsSpace),
      ← List.takeWhile_append_dropWhile isJsSpace
        (s.dropWhile isJsSpace).reverse]
    rw [List.reverse_append]
  · exact fun c hc => List.mem_takeWhile_imp hc
  · exact fun c hc => List.mem_takeWhile_imp (List.mem_reverse.mp hc)

theorem normalizeHebrew_pad {ws1 ws2 core : List Nat}
    (h1 : ∀ c ∈ ws1, isJsSpace c = true)
    (h2 : ∀ c ∈ ws2, isJsSpace c = true) :
    normalizeHebrew (ws1 ++ (core ++ ws2)) = normalizeHebrew core := by
  unfold normalizeHebrew
  rw [show ws1 ++ (core ++ ws2) = ws1 ++ core ++ ws2 from
    (List.append_assoc _ _ _).symm]
  rw [replaceRe_pad
    (fun s hs => matchRef_none (fun c hc => (isJsSpace_classes (hs c hc)).2.1))
    (fun c s' hc => matchRef_cons_space hc)
    (fun t ws hws => matchRef_ws hws)
    (fun t L h => matchRef_bound h) h1 h2]
  rw [replaceRe_pad
    (fun s hs => matchParen_none (fun c hc =>
      ⟨(isJsSpace_classes (hs c hc)).2.2.2.2.1,
        (isJsSpace_classes (hs c hc)).2.2.2.2.2.1⟩))
    (fun c s' hc => matchParen_cons_space hc)
    (fun t ws hws => matchParen_ws hws)
    (fun t L h => matchParen_bound h) h1 h2]
  rw [List.filter_append, List.filter_append,
    List.filterMap_append, List.filterMap_append]
  have e1 : ((ws1.filter (fun c => !isNiqqud c)).filterMap sofitFold) = [] :=
    List.filterMap_eq_nil_iff.mpr (fun a ha =>
      (isJsSpace_classes (h1 a (List.mem_of_mem_filter ha))).2.2.2.2.2.2.2.2.2)
  have e2 : ((ws2.filter (fun c => !isNiqqud c)).filterMap sofitFold) = [] :=
    List.filterMap_eq_nil_iff.mpr (fun a ha =>
      (isJsSpace_classes (h2 a (List.mem_of_mem_filter ha))).2.2.2.2.2.2.2.2.2)
  rw [e1, e2, List.nil_append, List.append_nil]

theorem normalizeHebrew_trimJs (s : List Nat) :
    normalizeHebrew (trimJs s) = normalizeHebrew s := by
  obtain ⟨ws1, ws2, hs, h1, h2⟩ := trimJs_decomp s
  conv_rhs => rw [hs]
  rw [normalizeHebrew_pad h1 h2]

/-- C10: re-normalizing the stored (trimmed) original text of any
returned Match reproduces its canonical form exactly. -/
theorem findPalindromes_renormalize (text : List Nat)
    (minLength maxLength : Int) (m : MatchR)
    (h : m ∈ findPalindromes text minLength maxLength) :
    normalizeHebrew m.original = m.normalized := by
  obtain ⟨sub, hnorm, horig, -, -, -, -⟩ :=
    scanResults_mem (findPalindromes_mem h)
  rw [horig, hnorm, normalizeHebrew_trimJs]

/-- Witness for C10: the text ` אבא ` (with surrounding spaces) returns
one Match whose trimmed original still normalizes to its canonical
form. -/
theorem findPalindromes_renormalize_witness :
    (⟨[0x05D0, 0x05D1, 0x05D0], [0x05D0, 0x05D1, 0x05D0], 3⟩ : MatchR) ∈
        findPalindromes [0x20, 0x05D0, 0x05D1, 0x05D0, 0x20] 3 50 ∧
      normalizeHebrew [0x05D0, 0x05D1, 0x05D0] = [0x05D0, 0x05D1, 0x05D0] :=
  ⟨by decide,
    findPalindromes_renormalize [0x20, 0x05D0, 0x05D1, 0x05D0, 0x20] 3 50
      ⟨[0x05D0, 0x05D1, 0x05D0], [0x05D0, 0x05D1, 0x05D0], 3⟩ (by decide)⟩

/-! ## Claim C1: completeness of the enumeration

The claim is false for the reference-aware scanner: the canonical length
is not monotone in the end offset (see the C2 analysis), so the
`canonical length > maxLength` break can cut off a later span whose
canonical form is an in-range palindrome that no other recorded span
produces.  In the text `אאאא,בב דא` with range `[3, 3]`, the whole text
normalizes to the palindrome `אדא` (the reference pattern swallows
`אאא,בב`), but the scan from offset 0 stops at `אאאא` (canonical length
4 > 3), and no other substring normalizes to `אדא`. -/

/-- C1 counterexample: the full text `אאאא,בב דא` is a substring of
itself whose canonical form `אדא` is a palindrome of length 3 within the
range `[3, 3]`, yet no Match with that canonical form is returned. -/
theorem findPalindromes_misses_canonical_form :
    normalizeHebrew (([0x05D0, 0x05D0, 0x05D0, 0x05D0, 0x2C, 0x05D1, 0x05D1,
        0x20, 0x05D3, 0x05D0].drop 0).take (10 - 0)) =
      [0x05D0, 0x05D3, 0x05D0] ∧
    isPalindrome [0x05D0, 0x05D3, 0x05D0] = true ∧
    (∀ m ∈ findPalindromes [0x05D0, 0x05D0, 0x05D0, 0x05D0, 0x2C, 0x05D1,
        0x05D1, 0x20, 0x05D3, 0x05D0] 3 3,
      m.normalized ≠ [0x05D0, 0x05D3, 0x05D0]) := by decide

theorem scanFrom_collect {text : List Nat} {i : Nat} {minLength maxLength : Int}
    {jt : Nat}
    (hcond : ∀ k : Nat, i < k → k ≤ jt →
      ¬((((text.drop i).take (k - i)).length : Int) > maxLength * 4) ∧
      ¬(((normalizeHebrew ((text.drop i).take (k - i))).length : Int) >
        maxLength))
    (hrec : minLength ≤
        ((normalizeHebrew ((text.drop i).take (jt - i))).length : Int) ∧
      isPalindrome (normalizeHebrew ((text.drop i).take (jt - i))) = true) :
    ∀ (j f : Nat), i < j → j ≤ jt → jt < j + f →
      (⟨normalizeHebrew ((text.drop i).take (jt - i)),
        trimJs ((text.drop i).take (jt - i)),
        (normalizeHebrew ((text.drop i).take (jt - i))).length⟩ : MatchR) ∈
        scanFrom text i minLength maxLength j f := by
  intro j f
  induction f generalizing j with
  | zero =>
    intro h1 h2 h3
    omega
  | succ f ih =>
    intro h1 h2 h3
    rw [scanFrom_succ]
    obtain ⟨hb1, hb2⟩ := hcond j h1 h2
    rw [if_neg hb1, if_neg hb2]
    by_cases hj : j = jt
    · subst hj
      rw [if_pos hrec]
      exact List.mem_append.mpr (Or.inl (List.mem_singleton.mpr rfl))
    · exact List.mem_append.mpr
        (Or.inr (ih (j + 1) (by omega) (by omega) (by omega)))

theorem scanResults_contains {text : List Nat} {minLength maxLength : Int}
    {i : Nat} {x : MatchR}
    (hi : i < text.length) (hstart : canStart (text.getD i 0) = true)
    (hx : x ∈ scanFrom text i minLength maxLength (i + 1) (text.length - i)) :
    x ∈ scanResults text minLength maxLength := by
  unfold scanResults
  have hmem : i ∈ List.range text.length := List.mem_range.mpr hi
  revert hmem
  induction List.range text.length with
  | nil => intro h; cases h
  | cons a L ih =>
    intro hmem
    rw [List.foldr_cons]
    rcases List.mem_cons.mp hmem with rfl | h'
    · refine List.mem_append.mpr (Or.inl ?_)
      rw [if_pos hstart]
      exact hx
    · exact List.mem_append.mpr (Or.inr (ih h'))

theorem foldl_pickRep_mem :
    ∀ (gs : List MatchR) (g : MatchR), gs.foldl pickRep g ∈ g :: gs := by
  intro gs
  induction gs with
  | nil => intro g; exact List.mem_singleton.mpr rfl
  | cons h t ih =>
    intro g
    rw [List.foldl_cons]
    rcases List.mem_cons.mp (ih (pickRep g h)) with he | ht
    · rw [he]
      unfold pickRep
      split
      · exact List.mem_cons_of_mem _ (List.mem_cons_self _ _)
      · exact List.mem_cons_self _ _
    · exact List.mem_cons_of_mem _ (List.mem_cons_of_mem _ ht)

theorem dropWhile_head_false {p : Nat → Bool} :
    ∀ {l : List Nat} {a : Nat} {t : List Nat},
      l.dropWhile p = a :: t → p a = false := by
  intro l
  induction l with
  | nil => intro a t h; cases h
  | cons x xs ih =>
    intro a t h
    rw [List.dropWhile_cons] at h
    split at h
    · exact ih h
    · rename_i hx
      rw [List.cons.injEq] at h
      rw [← h.1]
      exact Bool.eq_false_iff.mpr hx

theorem sofitFold_none_of_not_heb {c : Nat} (h : isHebLetter c = false) :
    sofitFold c = none := by
  simp only [isHebLetter, Bool.and_eq_false_iff, decide_eq_false_iff_not] at h
  unfold sofitFold
  rw [if_neg (by simp; omega), if_neg (by simp; omega),
    if_neg (by simp; omega), if_neg (by simp; omega),
    if_neg (by simp; omega),
    if_neg (by simp only [isHebLetter, Bool.and_eq_true,
      decide_eq_true_eq]; omega)]

theorem normalizeHebrewV1_no_heb {l : List Nat}
    (h : ∀ c ∈ l, isHebLetter c = false) : normalizeHebrewV1 l = [] := by
  unfold normalizeHebrewV1
  exact List.filterMap_eq_nil_iff.mpr (fun a ha =>
    sofitFold_none_of_not_heb (h a (List.mem_of_mem_filter ha)))

theorem head?_of_take_cons {l : List Nat} {n a : Nat} {t : List Nat}
    (h : l.take n = a :: t) : l.head? = some a := by
  cases n with
  | zero => cases h
  | succ n =>
    cases l with
    | nil => cases h
    | cons x xs =>
      rw [List.take_succ_cons, List.cons.injEq] at h
      rw [h.1]
      rfl

/-- C1 amended: on text free of the reference-pattern trigger characters
(comma, colon, opening parenthesis or bracket), for every valid range and
every substring of raw length at most `4 * maxLength` whose canonical
form is a palindrome with canonical length within `[minLength,
maxLength]`, a Match with that canonical form appears in the returned
MatchSet.  (The trigger-character and raw-length restrictions are forced
by the counterexample: reference stripping breaks the monotonicity that
justifies the early exit, and the raw-length cutoff can abandon a span
before its palindrome completes.) -/
theorem findPalindromes_complete_noRefs (text : List Nat)
    (minLength maxLength : Int) (i j : Nat)
    (hsep : ∀ ch ∈ text, isSepChar ch = false ∧ ch ≠ 0x28 ∧ ch ≠ 0x5B)
    (hmin1 : 1 ≤ minLength) (hminmax : minLength ≤ maxLength)
    (hij : i < j) (hjle : j ≤ text.length)
    (hraw : ((j - i : Nat) : Int) ≤ maxLength * 4)
    (hcmin : minLength ≤
      ((normalizeHebrew ((text.drop i).take (j - i))).length : Int))
    (hcmax : ((normalizeHebrew ((text.drop i).take (j - i))).length : Int) ≤
      maxLength)
    (hpal : isPalindrome (normalizeHebrew ((text.drop i).take (j - i))) =
      true) :
    ∃ m ∈ findPalindromes text minLength maxLength,
      m.normalized = normalizeHebrew ((text.drop i).take (j - i)) := by
  have hnoref : ∀ (a n : Nat), ∀ ch ∈ (text.drop a).take n,
      isSepChar ch = false ∧ ch ≠ 0x28 ∧ ch ≠ 0x5B :=
    fun a n ch hch =>
      hsep ch (List.mem_of_mem_drop (List.mem_of_mem_take hch))
  have hV1 : ∀ (a n : Nat), normalizeHebrew ((text.drop a).take n) =
      normalizeHebrewV1 ((text.drop a).take n) :=
    fun a n => normalizeHebrew_eq_v1 (hnoref a n)
  have hsublen : ((text.drop i).take (j - i)).length = j - i := by
    rw [List.length_take, List.length_drop]
    omega
  have hsplit : (text.drop i).take (j - i) =
      ((text.drop i).take (j - i)).takeWhile (fun ch => !isHebLetter ch) ++
      ((text.drop i).take (j - i)).dropWhile (fun ch => !isHebLetter ch) :=
    (List.takeWhile_append_dropWhile _ _).symm
  have hprenoheb : ∀ ch ∈ ((text.drop i).take (j - i)).takeWhile
      (fun ch => !isHebLetter ch), isHebLetter ch = false := by
    intro ch hch
    have := List.mem_takeWhile_imp hch
    simpa using this
  have hcanon_dw : normalizeHebrewV1 ((text.drop i).take (j - i)) =
      normalizeHebrewV1 (((text.drop i).take (j - i)).dropWhile
        (fun ch => !isHebLetter ch)) := by
    conv_lhs => rw [hsplit]
    rw [normalizeHebrewV1_append, normalizeHebrewV1_no_heb hprenoheb,
      List.nil_append]
  have hclen : 3 ≤ (normalizeHebrew ((text.drop i).take (j - i))).length :=
    isPalindrome_length hpal
  have hdwne : ((text.drop i).take (j - i)).dropWhile
      (fun ch => !isHebLetter ch) ≠ [] := by
    intro hnil
    rw [hV1 i (j - i), hcanon_dw, hnil] at hclen
    simp [normalizeHebrewV1] at hclen
  obtain ⟨hch, tl, hdw⟩ : ∃ a t, ((text.drop i).take (j - i)).dropWhile
      (fun ch => !isHebLetter ch) = a :: t := by
    cases hd : ((text.drop i).take (j - i)).dropWhile
        (fun ch => !isHebLetter ch) with
    | nil => exact absurd hd hdwne
    | cons a t => exact ⟨a, t, rfl⟩
  have hhcheb : isHebLetter hch = true := by
    have := dropWhile_head_false hdw
    simpa using this
  obtain ⟨A, hA⟩ : ∃ A, A = (((text.drop i).take (j - i)).takeWhile
      (fun ch => !isHebLetter ch)).length := ⟨_, rfl⟩
  have hAle : A < j - i := by
    have hlen := congrArg List.length hsplit
    rw [hsublen, List.length_append, hdw] at hlen
    simp only [List.length_cons] at hlen
    omega
  have hi'lt : i + A < text.length := by omega
  have hslice : (text.drop (i + A)).take (j - (i + A)) =
      ((text.drop i).take (j - i)).dropWhile (fun ch => !isHebLetter ch) := by
    have h1 : text.drop (i + A) = (text.drop i).drop A :=
      (List.drop_drop A i text).symm
    have h2 : ((text.drop i).take (j - i)).drop A =
        ((text.drop i).take (j - i)).dropWhile (fun ch => !isHebLetter ch) := by
      conv_lhs => rw [hsplit]
      exact List.drop_left' hA.symm
    rw [h1, ← h2]
    conv_rhs => rw [List.drop_take]
    congr 1
    omega
  have hcanon' : normalizeHebrew ((text.drop (i + A)).take (j - (i + A))) =
      normalizeHebrew ((text.drop i).take (j - i)) := by
    rw [hV1 (i + A) _, hV1 i _, hslice, ← hcanon_dw]
  have hstart : canStart (text.getD (i + A) 0) = true := by
    have hhd : (text.drop (i + A)).head? = some hch :=
      head?_of_take_cons (by rw [hslice, hdw])
    rw [List.head?_drop] at hhd
    have hgd : text.getD (i + A) 0 = hch := by
      rw [List.getD_eq_getElem?_getD, hhd]
      rfl
    rw [hgd]
    unfold canStart
    rw [hhcheb]
    rfl
  have hcond : ∀ k : Nat, i + A < k → k ≤ j →
      ¬((((text.drop (i + A)).take (k - (i + A))).length : Int) >
        maxLength * 4) ∧
      ¬(((normalizeHebrew ((text.drop (i + A)).take (k - (i + A)))).length :
        Int) > maxLength) := by
    intro k hk1 hk2
    constructor
    · have hlen : ((text.drop (i + A)).take (k - (i + A))).length ≤
          k - (i + A) := by
        rw [List.length_take]
        omega
      omega
    · have hm : (normalizeHebrewV1
          ((text.drop (i + A)).take (k - (i + A)))).length ≤
          (normalizeHebrewV1
            ((text.drop (i + A)).take (j - (i + A)))).length :=
        normalizeHebrewV1_take_mono _ (by omega)
      have hc' : (normalizeHebrewV1
          ((text.drop (i + A)).take (j - (i + A)))).length =
          (normalizeHebrew ((text.drop i).take (j - i))).length := by
        rw [← hV1 (i + A) _, hcanon']
      rw [hV1 (i + A) _]
      rw [hc'] at hm
      intro hgt
      omega
  have hx : (⟨normalizeHebrew ((text.drop (i + A)).take (j - (i + A))),
      trimJs ((text.drop (i + A)).take (j - (i + A))),
      (normalizeHebrew ((text.drop (i + A)).take (j - (i + A)))).length⟩ :
        MatchR) ∈ scanFrom text (i + A) minLength maxLength (i + A + 1)
        (text.length - (i + A)) := by
    refine scanFrom_collect hcond ?_ (i + A + 1) (text.length - (i + A))
      (by omega) (by omega) (by omega)
    rw [hcanon']
    exact ⟨hcmin, hpal⟩
  have hxres : (⟨normalizeHebrew ((text.drop (i + A)).take (j - (i + A))),
      trimJs ((text.drop (i + A)).take (j - (i + A))),
      (normalizeHebrew ((text.drop (i + A)).take (j - (i + A)))).length⟩ :
        MatchR) ∈ scanResults text minLength maxLength :=
    scanResults_contains hi'lt hstart hx
  have hkey : ((⟨normalizeHebrew ((text.drop (i + A)).take (j - (i + A))),
      trimJs ((text.drop (i + A)).take (j - (i + A))),
      (normalizeHebrew ((text.drop (i + A)).take (j - (i + A)))).length⟩ :
        MatchR).normalized ==
      normalizeHebrew ((text.drop i).take (j - i))) = true := by
    show (normalizeHebrew ((text.drop (i + A)).take (j - (i + A))) ==
      normalizeHebrew ((text.drop i).take (j - i))) = true
    rw [hcanon']
    exact beq_self_eq_true _
  have hfilter_ne : (scanResults text minLength maxLength).filter
      (fun m => m.normalized ==
        normalizeHebrew ((text.drop i).take (j - i))) ≠ [] := by
    intro hnil
    have hmemf : (⟨normalizeHebrew ((text.drop (i + A)).take (j - (i + A))),
        trimJs ((text.drop (i + A)).take (j - (i + A))),
        (normalizeHebrew ((text.drop (i + A)).take (j - (i + A)))).length⟩ :
          MatchR) ∈ (scanResults text minLength maxLength).filter
        (fun m => m.normalized ==
          normalizeHebrew ((text.drop i).take (j - i))) :=
      List.mem_filter.mpr ⟨hxres, hkey⟩
    rw [hnil] at hmemf
    cases hmemf
  cases hg : (scanResults text minLength maxLength).filter
      (fun m => m.normalized ==
        normalizeHebrew ((text.drop i).take (j - i))) with
  | nil => exact absurd hg hfilter_ne
  | cons g gs =>
    have hout : (findPalindromes text minLength maxLength).filter
        (fun m => m.normalized ==
          normalizeHebrew ((text.drop i).take (j - i))) =
        [gs.foldl pickRep g] := by
      rw [findPalindromes_filter_key, hg]
      rfl
    have hmem : gs.foldl pickRep g ∈
        (findPalindromes text minLength maxLength).filter
          (fun m => m.normalized ==
            normalizeHebrew ((text.drop i).take (j - i))) := by
      rw [hout]
      exact List.mem_singleton.mpr rfl
    have h1 := List.mem_filter.mp hmem
    exact ⟨gs.foldl pickRep g, h1.1, beq_iff_eq.mp h1.2⟩

/-- Witness for C1's amended statement: in the reference-free text `אבא`
with range `[3, 50]`, the substring `[0, 3)` normalizes to the palindrome
`אבא` and a Match with that canonical form is returned. -/
theorem findPalindromes_complete_noRefs_witness :
    ∃ m ∈ findPalindromes [0x05D0, 0x05D1, 0x05D0] 3 50,
      m.normalized =
        normalizeHebrew (([0x05D0, 0x05D1, 0x05D0].drop 0).take (3 - 0)) :=
  findPalindromes_complete_noRefs [0x05D0, 0x05D1, 0x05D0] 3 50 0 3
    (by decide) (by decide) (by decide) (by decide) (by decide) (by decide)
    (by decide) (by decide) (by decide)
